import Mathlib

set_option maxRecDepth 16384

/-!
Shallow embedding of the storage engine of the Jash2606/Redis-Server
repository (Go package `models`: the sharded cache with CLOCK eviction).

Machine integers are modelled as `Nat`/`Int` with explicit `% 2^32`
where Go's `uint32` overflow matters (the FNV hash); Go `int64` deltas
are `Int`.  Go maps (`shard.items`, `shard.elements`) are modelled as
association lists with unique keys; `container/list` (the circular
eviction queue `itemsList`) is a `List ClockItem` and the `clockHand`
pointer is an index into that list (`none` models a nil hand).  The
`elements` map in the source always maps a key to the unique list node
holding that key, so looking an element up through it is modelled as
locating the node of `itemsList` whose `key` field matches.
Stateful methods become state-passing functions returning the new state
together with the Go return value.
-/

/-- UTF-8 encoding of one character, as the list of its byte values. -/
def charBytes (c : Char) : List Nat :=
  let n := c.toNat
  if n < 128 then [n]
  else if n < 2048 then [192 + n / 64, 128 + n % 64]
  else if n < 65536 then [224 + n / 4096, 128 + (n / 64) % 64, 128 + n % 64]
  else [240 + n / 262144, 128 + (n / 4096) % 64, 128 + (n / 64) % 64, 128 + n % 64]

/-- Go `len`/indexing on a string works on UTF-8 bytes; this is the byte list. -/
def goBytes (s : String) : List Nat := s.data.flatMap charBytes

/-- Go `len(s)` (number of UTF-8 bytes). -/
def goLen (s : String) : Nat := (goBytes s).length

/-- The `fnv32` hash of the source: `hash *= 16777619; hash ^= key[i]` over a
`uint32` accumulator starting at `2166136261`. -/
def fnv32 (key : String) : Nat :=
  (goBytes key).foldl (fun hash b => Nat.xor ((hash * 16777619) % 4294967296) b) 2166136261

/-- `ClockItem` of the source: one node of the eviction queue. -/
structure ClockItem where
  key : String
  referenced : Bool
  size : Int
deriving DecidableEq, Repr

/-- `CacheShard` of the source.  The `elements` map is not separate state
here: it always maps `k` to the unique `itemsList` node with key `k`. -/
structure CacheShard where
  items : List (String × String)
  itemsList : List ClockItem
  clockHand : Option Nat
deriving DecidableEq, Repr

/-- `ShardedCache` of the source (the `stopChan` lifecycle field carries no
sequential state and is omitted). -/
structure ShardedCache where
  shards : List CacheShard
  shardCount : Nat
  memUsage : Int
deriving DecidableEq, Repr

/-- Lookup in a Go map modelled as an association list. -/
def lookupA : List (String × String) → String → Option String
  | [], _ => none
  | p :: t, k => if p.1 = k then some p.2 else lookupA t k

/-- `m[k] = v` on an existing key: replace the stored value in place. -/
def replaceA (l : List (String × String)) (k v : String) : List (String × String) :=
  l.map (fun p => if p.1 = k then (k, v) else p)

/-- `delete(m, k)` on a Go map. -/
def eraseA : List (String × String) → String → List (String × String)
  | [], _ => []
  | p :: t, k => if p.1 = k then eraseA t k else p :: eraseA t k

/-- Body of `ShardedCache.Get` acting on the routed shard: on a hit the
node found through the `elements` map gets `referenced = true`. -/
def CacheShard.getStep (s : CacheShard) (key : String) : CacheShard × String × Bool :=
  match lookupA s.items key with
  | some val =>
    ({ s with itemsList :=
        s.itemsList.map (fun it => if it.key = key then { it with referenced := true } else it) },
      val, true)
  | none => (s, "", false)

/-- Body of `ShardedCache.Put` acting on the routed shard; the second
component is the delta reported to the global counter via
`atomic.AddInt64(&c.memUsage, _)`. -/
def CacheShard.putStep (s : CacheShard) (key value : String) : CacheShard × Int :=
  let totalSize : Int := (goLen key : Int) + (goLen value : Int)
  match lookupA s.items key with
  | some oldVal =>
    ({ s with
        items := replaceA s.items key value,
        itemsList := s.itemsList.map (fun it =>
          if it.key = key then { it with referenced := true, size := totalSize } else it) },
      (goLen value : Int) - (goLen oldVal : Int))
  | none =>
    ({ items := s.items ++ [(key, value)],
       itemsList := s.itemsList ++ [{ key := key, referenced := true, size := totalSize }],
       clockHand := match s.clockHand with | none => some s.itemsList.length | some h => some h },
      totalSize)

/-- `nextOrFirst` of the source, on hand indices: the next index, wrapping
to the front after the last node of a list of length `n`. -/
def nextOrFirst (i n : Nat) : Nat := if i + 1 < n then i + 1 else 0

/-- Result of the CLOCK sweep loop: the shard fields it mutates, the
`evicted` counter, and the number of times `attempts` was incremented. -/
structure EvictRes where
  items : List (String × String)
  itemsList : List ClockItem
  clockHand : Option Nat
  evicted : Nat
  steps : Nat
deriving DecidableEq, Repr

/-- The hand position after `s.itemsList.Remove(s.clockHand); s.clockHand = next`:
`next = nextOrFirst hand n` in the old list of length `n` is node `hand + 1`
when that exists — which sits at index `hand` once index `hand` is removed —
and otherwise the front node, index 0 of the shrunken list. -/
def handAfterRemove (hand n : Nat) : Nat := if hand + 1 < n then hand else 0

/-- `attempts++`: account one more inspection step in the loop result. -/
def bumpStep (r : EvictRes) : EvictRes := { r with steps := r.steps + 1 }

@[simp] theorem bumpStep_items (r : EvictRes) : (bumpStep r).items = r.items := rfl

@[simp] theorem bumpStep_itemsList (r : EvictRes) : (bumpStep r).itemsList = r.itemsList := rfl

@[simp] theorem bumpStep_clockHand (r : EvictRes) : (bumpStep r).clockHand = r.clockHand := rfl

@[simp] theorem bumpStep_evicted (r : EvictRes) : (bumpStep r).evicted = r.evicted := rfl

@[simp] theorem bumpStep_steps (r : EvictRes) : (bumpStep r).steps = r.steps + 1 := rfl

/-- The `for evicted < count && attempts < maxAttempts` loop of
`CacheShard.evict`.  `fuel` is `maxAttempts - attempts`, so the `0` case is
the `attempts < maxAttempts` exit.  The `none` case of `lst[hand]?` is a
nil-pointer dereference in Go; it is unreachable from the guarded entry
point (`evict` only enters the loop with a valid hand on a non-empty list,
and the loop keeps the hand valid). -/
def evictLoop (count : Nat) : Nat → List (String × String) → List ClockItem → Nat → Nat → EvictRes
  | 0, items, lst, hand, evicted => ⟨items, lst, some hand, evicted, 0⟩
  | fuel + 1, items, lst, hand, evicted =>
    if count ≤ evicted then ⟨items, lst, some hand, evicted, 0⟩
    else
      match lst[hand]? with
      | none => ⟨items, lst, some hand, evicted, 0⟩
      | some item =>
        if item.referenced then
          bumpStep (evictLoop count fuel items
            (lst.set hand { item with referenced := false }) (nextOrFirst hand lst.length) evicted)
        else
          if (lst.eraseIdx hand).length = 0 then
            ⟨eraseA items item.key, lst.eraseIdx hand, none, evicted + 1, 1⟩
          else
            bumpStep (evictLoop count fuel (eraseA items item.key) (lst.eraseIdx hand)
              (handAfterRemove hand lst.length) (evicted + 1))

/-- `CacheShard.evict` of the source: the CLOCK sweep with
`maxAttempts = itemsList.Len() * 2`, returning the new shard state and the
number of evicted entries.  When the hand index `hand + 1 < lst.length`
holds, `nextOrFirst` lands on `hand + 1` in the old list, which after
removing index `hand` is the node at index `hand`; otherwise it wraps to
the front (index 0 of the shrunken list). -/
def CacheShard.evict (s : CacheShard) (count : Nat) : CacheShard × Nat :=
  match s.clockHand with
  | none => (s, 0)
  | some h =>
    if s.itemsList.length = 0 then (s, 0)
    else
      let r := evictLoop count (s.itemsList.length * 2) s.items s.itemsList h 0
      (⟨r.items, r.itemsList, r.clockHand⟩, r.evicted)

/-- `getShard` of the source, as the selected index: `fnv32(key) % shardCount`. -/
def ShardedCache.getShardIdx (c : ShardedCache) (key : String) : Nat :=
  fnv32 key % c.shardCount

/-- `ShardedCache.Get`: route to the shard and run the lookup there.  The
`none` branch (index out of range) is unreachable for a well-formed cache,
where `shards.length = shardCount`. -/
def ShardedCache.Get (c : ShardedCache) (key : String) : ShardedCache × String × Bool :=
  match c.shards[c.getShardIdx key]? with
  | none => (c, "", false)
  | some s =>
    let r := s.getStep key
    ({ c with shards := c.shards.set (c.getShardIdx key) r.1 }, r.2)

/-- `ShardedCache.Put`: route to the shard, run the insert/update there and
add the reported delta to the global `memUsage` counter. -/
def ShardedCache.Put (c : ShardedCache) (key value : String) : ShardedCache :=
  match c.shards[c.getShardIdx key]? with
  | none => c
  | some s =>
    let r := s.putStep key value
    { c with shards := c.shards.set (c.getShardIdx key) r.1, memUsage := c.memUsage + r.2 }

/-- Reattach a processed shard in front of the rest of the fold result. -/
def consShard (s : CacheShard) (r : List CacheShard × Nat) : List CacheShard × Nat :=
  (s :: r.1, r.2)

@[simp] theorem consShard_fst (s : CacheShard) (r : List CacheShard × Nat) :
    (consShard s r).1 = s :: r.1 := rfl

@[simp] theorem consShard_snd (s : CacheShard) (r : List CacheShard × Nat) :
    (consShard s r).2 = r.2 := rfl

/-- The `for i := 0; i < c.shardCount && evicted < count; i++` loop of
`evictBatch`, over the shard array. -/
def evictBatchLoop (count perShard : Nat) : List CacheShard → Nat → List CacheShard × Nat
  | [], evicted => ([], evicted)
  | s :: rest, evicted =>
    if count ≤ evicted then (s :: rest, evicted)
    else
      consShard (s.evict perShard).1
        (evictBatchLoop count perShard rest (evicted + (s.evict perShard).2))

/-- `ShardedCache.evictBatch` of the source:
`perShardCount = count / shardCount`, clamped up to 1, then sweep the
shards in index order until the running total reaches `count`.  The Go
method returns nothing; the second component is its local `evicted`
variable, the number of entries removed. -/
def ShardedCache.evictBatch (c : ShardedCache) (count : Nat) : ShardedCache × Nat :=
  let perShardCount := if count / c.shardCount < 1 then 1 else count / c.shardCount
  let r := evictBatchLoop count perShardCount c.shards 0
  ({ c with shards := r.1 }, r.2)

/-- A freshly constructed shard (`items`, `elements` empty, `itemsList`
empty, nil hand). -/
def emptyShard : CacheShard := { items := [], itemsList := [], clockHand := none }

/-- The shard-array construction of `NewCache`, with the shard count kept
as a parameter; the source fixes it to `DefaultShards = 1024`. -/
def mkCache (n : Nat) : ShardedCache :=
  { shards := List.replicate n emptyShard, shardCount := n, memUsage := 0 }

/-- `NewCache()` of the source: 1024 shards, zero memory counter. -/
def newCache : ShardedCache := mkCache 1024

/-- The eviction-trigger decision of one `monitorMemory` wake, from the
sampled runtime statistics `m.Alloc` and `m.Sys`: evict
`EvictionBatchSize = 200` entries when `Alloc/Sys > 0.7`, doubled above
`0.85`.  Go's float64 division is modelled by exact rational division;
note the decision reads no cache state at all. -/
def monitorTrigger (alloc sys : Nat) : Option Nat :=
  if (7 : ℚ) / 10 < (alloc : ℚ) / (sys : ℚ) then
    some (if (85 : ℚ) / 100 < (alloc : ℚ) / (sys : ℚ) then 200 * 2 else 200)
  else none

/-- One wake of the `monitorMemory` loop applied to a cache state. -/
def monitorStep (c : ShardedCache) (alloc sys : Nat) : ShardedCache :=
  match monitorTrigger alloc sys with
  | none => c
  | some n => (c.evictBatch n).1

/-- Sum of the `size` fields of the nodes of one eviction queue. -/
def sumQueue (l : List ClockItem) : Int := (l.map ClockItem.size).sum

/-- Sum of the `size` fields of all live entries across all shards. -/
def sumSizes (c : ShardedCache) : Int := (c.shards.map (fun s => sumQueue s.itemsList)).sum

/-- Total number of live entries (eviction-queue nodes) across all shards. -/
def totalEntries (c : ShardedCache) : Nat := (c.shards.map (fun s => s.itemsList.length)).sum

/-- The clock hand is nil exactly on an empty shard and otherwise indexes a
live node of the eviction queue. -/
def handOK (s : CacheShard) : Prop :=
  match s.clockHand with
  | none => s.itemsList = []
  | some h => h < s.itemsList.length

instance (s : CacheShard) : Decidable (handOK s) :=
  match hs : s.clockHand with
  | none => decidable_of_iff (s.itemsList = []) (by simp [handOK, hs])
  | some h => decidable_of_iff (h < s.itemsList.length) (by simp [handOK, hs])

/-- The shard invariant: the lookup map and the eviction queue hold the
same keys, each exactly once, and the clock hand is live. -/
def WFShard (s : CacheShard) : Prop :=
  (s.items.map Prod.fst).Nodup ∧
  (s.itemsList.map ClockItem.key).Nodup ∧
  (∀ k ∈ s.items.map Prod.fst, k ∈ s.itemsList.map ClockItem.key) ∧
  (∀ k ∈ s.itemsList.map ClockItem.key, k ∈ s.items.map Prod.fst) ∧
  handOK s

instance (s : CacheShard) : Decidable (WFShard s) := by
  unfold WFShard; infer_instance

/-- Every queue node's `size` is the byte length of its key plus that of
the currently stored value. -/
def SizeOK (s : CacheShard) : Prop :=
  ∀ it ∈ s.itemsList,
    some it.size = (lookupA s.items it.key).map (fun v => (goLen it.key : Int) + (goLen v : Int))

instance (s : CacheShard) : Decidable (SizeOK s) := by
  unfold SizeOK; infer_instance

/-- Folding `Put` over a list of key-value pairs, in order. -/
def putList (c : ShardedCache) (ps : List (String × String)) : ShardedCache :=
  ps.foldl (fun c p => c.Put p.1 p.2) c

example : goLen "a" = 1 ∧ goLen "22" = 2 := by decide

example : (emptyShard.putStep "a" "1").2 = 2 := by decide

example :
    ((emptyShard.putStep "a" "1").1.putStep "a" "22").2 = 1 := by decide

example :
    (((emptyShard.putStep "a" "1").1.putStep "b" "22").1.evict 1).2 = 1 := by decide

/-- The queue node `Put` creates for a fresh insert of the pair `p`. -/
def mkItem (p : String × String) : ClockItem :=
  ⟨p.1, true, (goLen p.1 : Int) + (goLen p.2 : Int)⟩

/-- A queue with every reference bit cleared (the effect of one full
second-chance pass of the hand). -/
def clearAll (lst : List ClockItem) : List ClockItem :=
  lst.map (fun it => ⟨it.key, false, it.size⟩)

/-- Erasing a list of keys from the lookup map, in order. -/
def eraseKeys (items : List (String × String)) (ks : List String) : List (String × String) :=
  ks.foldl eraseA items

/-- Total byte size (key + value) of a list of pairs, as reported to the
global counter by fresh inserts. -/
def sizeSum (ps : List (String × String)) : Int :=
  (ps.map (fun p => (goLen p.1 : Int) + (goLen p.2 : Int))).sum

/-- Account `n` more inspection steps in a loop result. -/
def bumpSteps (n : Nat) (r : EvictRes) : EvictRes := { r with steps := r.steps + n }

@[simp] theorem bumpSteps_items (n : Nat) (r : EvictRes) : (bumpSteps n r).items = r.items := rfl

@[simp] theorem bumpSteps_itemsList (n : Nat) (r : EvictRes) :
    (bumpSteps n r).itemsList = r.itemsList := rfl

@[simp] theorem bumpSteps_clockHand (n : Nat) (r : EvictRes) :
    (bumpSteps n r).clockHand = r.clockHand := rfl

@[simp] theorem bumpSteps_evicted (n : Nat) (r : EvictRes) :
    (bumpSteps n r).evicted = r.evicted := rfl

theorem bumpStep_bumpSteps (n : Nat) (r : EvictRes) :
    bumpStep (bumpSteps n r) = bumpSteps (n + 1) r := by
  unfold bumpStep bumpSteps
  simp [Nat.add_assoc]

/-! ### Association-list lemmas -/

theorem lookupA_eq_none {l : List (String × String)} {k : String} :
    lookupA l k = none ↔ k ∉ l.map Prod.fst := by
  induction l with
  | nil => simp [lookupA]
  | cons p t ih =>
    rw [lookupA]
    by_cases h : p.1 = k
    · simp [h]
    · rw [if_neg h, ih, List.map_cons, List.mem_cons]
      constructor
      · intro hnot hor
        rcases hor with h1 | h2
        · exact h h1.symm
        · exact hnot h2
      · intro hnot h2
        exact hnot (Or.inr h2)

theorem lookupA_isSome {l : List (String × String)} {k : String} :
    (lookupA l k).isSome ↔ k ∈ l.map Prod.fst := by
  cases ho : lookupA l k with
  | none =>
    simp only [Option.isSome_none, Bool.false_eq_true, false_iff]
    exact lookupA_eq_none.1 ho
  | some v =>
    simp only [Option.isSome_some, true_iff]
    by_contra hmem
    rw [← lookupA_eq_none, ho] at hmem
    cases hmem

theorem lookupA_append_of_none {l m : List (String × String)} {k : String}
    (h : lookupA l k = none) : lookupA (l ++ m) k = lookupA m k := by
  induction l with
  | nil => simp
  | cons p t ih =>
    rw [lookupA] at h
    by_cases hp : p.1 = k
    · rw [if_pos hp] at h; exact absurd h (by simp)
    · rw [if_neg hp] at h
      rw [List.cons_append, lookupA, if_neg hp]
      exact ih h

theorem lookupA_snoc_self {l : List (String × String)} {k v : String}
    (h : lookupA l k = none) : lookupA (l ++ [(k, v)]) k = some v := by
  rw [lookupA_append_of_none h, lookupA, if_pos rfl]

theorem lookupA_replaceA_self {l : List (String × String)} {k v w : String}
    (h : lookupA l k = some w) : lookupA (replaceA l k v) k = some v := by
  induction l with
  | nil => simp [lookupA] at h
  | cons p t ih =>
    rw [lookupA] at h
    by_cases hp : p.1 = k
    · simp [replaceA, lookupA, hp]
    · rw [if_neg hp] at h
      simp only [replaceA, List.map_cons, if_neg hp]
      rw [lookupA, if_neg hp]
      exact ih h

theorem lookupA_replaceA_ne {l : List (String × String)} {k v k' : String}
    (h : k' ≠ k) : lookupA (replaceA l k v) k' = lookupA l k' := by
  induction l with
  | nil => rfl
  | cons p t ih =>
    simp only [replaceA, List.map_cons]
    by_cases hp : p.1 = k
    · rw [if_pos hp, lookupA, lookupA, if_neg (Ne.symm h),
        if_neg (fun hh : p.1 = k' => h (hp.symm.trans hh).symm)]
      exact ih
    · rw [if_neg hp, lookupA, lookupA]
      by_cases hk : p.1 = k'
      · rw [if_pos hk, if_pos hk]
      · rw [if_neg hk, if_neg hk]
        exact ih

theorem map_fst_replaceA {l : List (String × String)} {k v : String} :
    (replaceA l k v).map Prod.fst = l.map Prod.fst := by
  induction l with
  | nil => rfl
  | cons p t ih =>
    simp only [replaceA, List.map_cons] at *
    by_cases hp : p.1 = k
    · rw [if_pos hp, ih]
      simp [hp]
    · rw [if_neg hp, ih]

theorem lookupA_eraseA_self {l : List (String × String)} {k : String} :
    lookupA (eraseA l k) k = none := by
  induction l with
  | nil => rfl
  | cons p t ih =>
    rw [eraseA]
    by_cases hp : p.1 = k
    · rw [if_pos hp]; exact ih
    · rw [if_neg hp, lookupA, if_neg hp]; exact ih

theorem lookupA_eraseA_ne {l : List (String × String)} {k k' : String}
    (h : k' ≠ k) : lookupA (eraseA l k) k' = lookupA l k' := by
  induction l with
  | nil => rfl
  | cons p t ih =>
    rw [eraseA, lookupA]
    by_cases hp : p.1 = k
    · rw [if_pos hp, if_neg (fun hh : p.1 = k' => h (hp.symm.trans hh).symm)]
      exact ih
    · rw [if_neg hp, lookupA]
      by_cases hk : p.1 = k'
      · rw [if_pos hk, if_pos hk]
      · rw [if_neg hk, if_neg hk]; exact ih

theorem map_fst_eraseA_sublist {l : List (String × String)} {k : String} :
    ((eraseA l k).map Prod.fst).Sublist (l.map Prod.fst) := by
  induction l with
  | nil => exact List.Sublist.refl _
  | cons p t ih =>
    rw [eraseA]
    by_cases hp : p.1 = k
    · rw [if_pos hp, List.map_cons]
      exact ih.trans (List.sublist_cons_self _ _)
    · rw [if_neg hp, List.map_cons, List.map_cons]
      exact ih.cons₂ _

theorem mem_map_fst_eraseA {l : List (String × String)} {k k' : String} :
    k' ∈ (eraseA l k).map Prod.fst ↔ k' ∈ l.map Prod.fst ∧ k' ≠ k := by
  induction l with
  | nil => simp [eraseA]
  | cons p t ih =>
    rw [eraseA]
    by_cases hp : p.1 = k
    · rw [if_pos hp, ih, List.map_cons, List.mem_cons]
      constructor
      · rintro ⟨hm, hne⟩
        exact ⟨Or.inr hm, hne⟩
      · rintro ⟨h1 | h2, hne⟩
        · exact absurd (h1.trans hp) hne
        · exact ⟨h2, hne⟩
    · rw [if_neg hp, List.map_cons, List.map_cons, List.mem_cons, List.mem_cons]
      constructor
      · rintro (h1 | h2)
        · exact ⟨Or.inl h1, fun hh => hp (h1.symm.trans hh)⟩
        · rcases ih.1 h2 with ⟨hm, hne⟩
          exact ⟨Or.inr hm, hne⟩
      · rintro ⟨h1 | h2, hne⟩
        · exact Or.inl h1
        · exact Or.inr (ih.2 ⟨h2, hne⟩)

/-! ### Eviction-queue index lemmas -/

theorem nextOrFirst_lt {i n : Nat} (h : 0 < n) : nextOrFirst i n < n := by
  unfold nextOrFirst
  by_cases hc : i + 1 < n
  · rw [if_pos hc]; exact hc
  · rw [if_neg hc]; exact h

theorem map_key_set_same {lst : List ClockItem} {i : Nat} {it it' : ClockItem}
    (hget : lst[i]? = some it) (hkey : it'.key = it.key) :
    (lst.set i it').map ClockItem.key = lst.map ClockItem.key := by
  induction lst generalizing i with
  | nil => simp at hget
  | cons a t ih =>
    cases i with
    | zero =>
      rw [List.getElem?_cons_zero, Option.some_inj] at hget
      subst hget
      rw [List.set_cons_zero, List.map_cons, List.map_cons, hkey]
    | succ i =>
      rw [List.getElem?_cons_succ] at hget
      rw [List.set_cons_succ, List.map_cons, List.map_cons, ih hget]

theorem mem_of_getElem?' {α : Type} {lst : List α} {i : Nat} {it : α}
    (hget : lst[i]? = some it) : it ∈ lst := by
  induction lst generalizing i with
  | nil => simp at hget
  | cons a t ih =>
    cases i with
    | zero =>
      rw [List.getElem?_cons_zero, Option.some_inj] at hget
      exact hget ▸ List.mem_cons_self a t
    | succ i =>
      rw [List.getElem?_cons_succ] at hget
      exact List.mem_cons_of_mem a (ih hget)

theorem mem_map_key_eraseIdx {lst : List ClockItem} {i : Nat} {it : ClockItem} {k : String}
    (hnd : (lst.map ClockItem.key).Nodup) (hget : lst[i]? = some it) :
    k ∈ (lst.eraseIdx i).map ClockItem.key ↔ k ∈ lst.map ClockItem.key ∧ k ≠ it.key := by
  induction lst generalizing i with
  | nil => simp at hget
  | cons a t ih =>
    rw [List.map_cons, List.nodup_cons] at hnd
    cases i with
    | zero =>
      rw [List.getElem?_cons_zero, Option.some_inj] at hget
      subst hget
      rw [List.eraseIdx_cons_zero, List.map_cons, List.mem_cons]
      constructor
      · intro hm
        exact ⟨Or.inr hm, fun hh => hnd.1 (hh ▸ hm)⟩
      · rintro ⟨h1 | h2, hne⟩
        · exact absurd h1 hne
        · exact h2
    | succ i =>
      rw [List.getElem?_cons_succ] at hget
      have hit : it.key ∈ t.map ClockItem.key :=
        List.mem_map_of_mem ClockItem.key (mem_of_getElem?' hget)
      rw [List.eraseIdx_cons_succ, List.map_cons, List.map_cons, List.mem_cons, List.mem_cons,
        ih hnd.2 hget]
      constructor
      · rintro (h1 | ⟨h2, hne⟩)
        · exact ⟨Or.inl h1, fun hh => hnd.1 (h1 ▸ hh ▸ hit)⟩
        · exact ⟨Or.inr h2, hne⟩
      · rintro ⟨h1 | h2, hne⟩
        · exact Or.inl h1
        · exact Or.inr ⟨h2, hne⟩


/-! ### CLOCK sweep loop lemmas -/

theorem evictLoop_evicted_le (count : Nat) :
    ∀ (fuel : Nat) (items : List (String × String)) (lst : List ClockItem) (hand evicted : Nat),
      evicted ≤ count → (evictLoop count fuel items lst hand evicted).evicted ≤ count := by
  intro fuel
  induction fuel with
  | zero =>
    intro items lst hand evicted h
    simpa [evictLoop] using h
  | succ fuel ih =>
    intro items lst hand evicted h
    rw [evictLoop]
    split
    · exact h
    · split
      · exact h
      · split
        · rw [bumpStep_evicted]
          exact ih _ _ _ _ h
        · split
          · exact Nat.lt_of_not_le (by assumption)
          · rw [bumpStep_evicted]
            exact ih _ _ _ _ (Nat.lt_of_not_le (by assumption))

theorem evictLoop_steps_le (count : Nat) :
    ∀ (fuel : Nat) (items : List (String × String)) (lst : List ClockItem) (hand evicted : Nat),
      (evictLoop count fuel items lst hand evicted).steps ≤ fuel := by
  intro fuel
  induction fuel with
  | zero =>
    intro items lst hand evicted
    simp [evictLoop]
  | succ fuel ih =>
    intro items lst hand evicted
    rw [evictLoop]
    split
    · simp
    · split
      · simp
      · split
        · rw [bumpStep_steps]
          exact Nat.succ_le_succ (ih _ _ _ _)
        · split
          · simp
          · rw [bumpStep_steps]
            exact Nat.succ_le_succ (ih _ _ _ _)

theorem evictLoop_length_eq (count : Nat) :
    ∀ (fuel : Nat) (items : List (String × String)) (lst : List ClockItem) (hand evicted : Nat),
      (evictLoop count fuel items lst hand evicted).itemsList.length +
        (evictLoop count fuel items lst hand evicted).evicted = lst.length + evicted := by
  intro fuel
  induction fuel with
  | zero =>
    intro items lst hand evicted
    simp [evictLoop]
  | succ fuel ih =>
    intro items lst hand evicted
    rw [evictLoop]
    split
    · rfl
    · split
      · rfl
      · split
        · rw [bumpStep_itemsList, bumpStep_evicted, ih]
          simp
        · rename_i hget href
          have hlt : hand < lst.length := (List.getElem?_eq_some.1 hget).1
          have herase : (lst.eraseIdx hand).length = lst.length - 1 := by
            rw [List.length_eraseIdx]
            exact if_pos hlt
          split
          · rename_i hzero
            simp only [EvictRes.itemsList, EvictRes.evicted]
            omega
          · rw [bumpStep_itemsList, bumpStep_evicted, ih, herase]
            omega

theorem map_key_map_of_key_eq {lst : List ClockItem} {g : ClockItem → ClockItem}
    (h : ∀ it, (g it).key = it.key) :
    (lst.map g).map ClockItem.key = lst.map ClockItem.key := by
  rw [List.map_map]
  exact List.map_congr_left (fun it _ => h it)

theorem map_size_map_of_size_eq {lst : List ClockItem} {g : ClockItem → ClockItem}
    (h : ∀ it, (g it).size = it.size) :
    (lst.map g).map ClockItem.size = lst.map ClockItem.size := by
  rw [List.map_map]
  exact List.map_congr_left (fun it _ => h it)

theorem evictLoop_hand (count : Nat) :
    ∀ (fuel : Nat) (items : List (String × String)) (lst : List ClockItem) (hand evicted : Nat),
      hand < lst.length →
      ((evictLoop count fuel items lst hand evicted).clockHand = none →
        (evictLoop count fuel items lst hand evicted).itemsList = []) ∧
      (∀ h', (evictLoop count fuel items lst hand evicted).clockHand = some h' →
        h' < (evictLoop count fuel items lst hand evicted).itemsList.length) := by
  intro fuel
  induction fuel with
  | zero =>
    intro items lst hand evicted hlt
    rw [evictLoop]
    refine ⟨fun h => ?_, fun h' hh => ?_⟩
    · cases h
    · rw [← Option.some_inj.1 hh]
      exact hlt
  | succ fuel ih =>
    intro items lst hand evicted hlt
    rw [evictLoop]
    split
    · refine ⟨fun h => ?_, fun h' hh => ?_⟩
      · cases h
      · rw [← Option.some_inj.1 hh]
        exact hlt
    · split
      · rename_i hget
        exact absurd hlt (Nat.not_lt.2 (List.getElem?_eq_none_iff.1 hget))
      · rename_i item hget
        split
        · rw [bumpStep_clockHand, bumpStep_itemsList]
          exact ih _ _ _ _ (by
            rw [List.length_set]
            exact nextOrFirst_lt (Nat.lt_of_le_of_lt (Nat.zero_le _) hlt))
        · split
          · refine ⟨fun _ => List.eq_nil_of_length_eq_zero (by assumption), fun h' hh => ?_⟩
            cases hh
          · rename_i hne
            rw [bumpStep_clockHand, bumpStep_itemsList]
            have hlen : (lst.eraseIdx hand).length = lst.length - 1 := by
              rw [List.length_eraseIdx]
              exact if_pos hlt
            refine ih _ _ _ _ ?_
            unfold handAfterRemove
            by_cases hc : hand + 1 < lst.length
            · rw [if_pos hc, hlen]
              omega
            · rw [if_neg hc, hlen]
              omega

theorem evictLoop_WF (count : Nat) :
    ∀ (fuel : Nat) (items : List (String × String)) (lst : List ClockItem) (hand evicted : Nat),
      (items.map Prod.fst).Nodup → (lst.map ClockItem.key).Nodup →
      (∀ k ∈ items.map Prod.fst, k ∈ lst.map ClockItem.key) →
      (∀ k ∈ lst.map ClockItem.key, k ∈ items.map Prod.fst) →
      ((evictLoop count fuel items lst hand evicted).items.map Prod.fst).Nodup ∧
      ((evictLoop count fuel items lst hand evicted).itemsList.map ClockItem.key).Nodup ∧
      (∀ k ∈ (evictLoop count fuel items lst hand evicted).items.map Prod.fst,
        k ∈ (evictLoop count fuel items lst hand evicted).itemsList.map ClockItem.key) ∧
      (∀ k ∈ (evictLoop count fuel items lst hand evicted).itemsList.map ClockItem.key,
        k ∈ (evictLoop count fuel items lst hand evicted).items.map Prod.fst) := by
  intro fuel
  induction fuel with
  | zero =>
    intro items lst hand evicted h1 h2 h3 h4
    rw [evictLoop]
    exact ⟨h1, h2, h3, h4⟩
  | succ fuel ih =>
    intro items lst hand evicted h1 h2 h3 h4
    rw [evictLoop]
    split
    · exact ⟨h1, h2, h3, h4⟩
    · split
      · exact ⟨h1, h2, h3, h4⟩
      · rename_i item hget
        split
        · rw [bumpStep_items, bumpStep_itemsList]
          have hkeys : ((lst.set hand { item with referenced := false }).map ClockItem.key) =
              lst.map ClockItem.key := map_key_set_same hget rfl
          exact ih _ _ _ _ h1 (by rw [hkeys]; exact h2)
            (fun k hk => by rw [hkeys]; exact h3 k hk)
            (fun k hk => h4 k (by rw [hkeys] at hk; exact hk))
        · rename_i href
          have hlt : hand < lst.length := (List.getElem?_eq_some.1 hget).1
          split
          · rename_i hzero
            have hnil : lst.eraseIdx hand = [] := List.eq_nil_of_length_eq_zero hzero
            refine ⟨h1.sublist map_fst_eraseA_sublist, by simp [hnil], ?_, by simp [hnil]⟩
            intro k hk
            rcases mem_map_fst_eraseA.1 hk with ⟨hmem, hne⟩
            exact absurd ((mem_map_key_eraseIdx h2 hget).2 ⟨h3 k hmem, hne⟩) (by simp [hnil])
          · rw [bumpStep_items, bumpStep_itemsList]
            refine ih _ _ _ _ (h1.sublist map_fst_eraseA_sublist)
              (h2.sublist ((List.eraseIdx_sublist lst hand).map ClockItem.key)) ?_ ?_
            · intro k hk
              rcases mem_map_fst_eraseA.1 hk with ⟨hmem, hne⟩
              exact (mem_map_key_eraseIdx h2 hget).2 ⟨h3 k hmem, hne⟩
            · intro k hk
              rcases (mem_map_key_eraseIdx h2 hget).1 hk with ⟨hmem, hne⟩
              exact mem_map_fst_eraseA.2 ⟨h4 k hmem, hne⟩

/-! ### Shard-level lemmas -/

theorem handOK_none {s : CacheShard} (h5 : handOK s) (hh : s.clockHand = none) :
    s.itemsList = [] := by
  unfold handOK at h5
  rw [hh] at h5
  exact h5

theorem handOK_some {s : CacheShard} (h5 : handOK s) {h : Nat} (hh : s.clockHand = some h) :
    h < s.itemsList.length := by
  unfold handOK at h5
  rw [hh] at h5
  exact h5

theorem handOK_of_none {s : CacheShard} (hh : s.clockHand = none) (he : s.itemsList = []) :
    handOK s := by
  unfold handOK
  rw [hh]
  exact he

theorem handOK_of_some {s : CacheShard} {h : Nat} (hh : s.clockHand = some h)
    (hlt : h < s.itemsList.length) : handOK s := by
  unfold handOK
  rw [hh]
  exact hlt

theorem CacheShard.evict_evicted_le (s : CacheShard) (n : Nat) : (s.evict n).2 ≤ n := by
  unfold CacheShard.evict
  split
  · exact Nat.zero_le n
  · split
    · exact Nat.zero_le n
    · exact evictLoop_evicted_le n _ _ _ _ _ (Nat.zero_le n)

theorem CacheShard.evict_length_eq (s : CacheShard) (n : Nat) :
    (s.evict n).1.itemsList.length + (s.evict n).2 = s.itemsList.length := by
  unfold CacheShard.evict
  split
  · rfl
  · split
    · rfl
    · rename_i h hh hlen
      simpa using evictLoop_length_eq n (s.itemsList.length * 2) s.items s.itemsList h 0

theorem CacheShard.evict_WF {s : CacheShard} (n : Nat) (hwf : WFShard s) :
    WFShard (s.evict n).1 := by
  obtain ⟨h1, h2, h3, h4, h5⟩ := hwf
  unfold CacheShard.evict
  split
  · exact ⟨h1, h2, h3, h4, h5⟩
  · rename_i h hh
    have hlt : h < s.itemsList.length := handOK_some h5 hh
    split
    · exact ⟨h1, h2, h3, h4, h5⟩
    · obtain ⟨w1, w2, w3, w4⟩ :=
        evictLoop_WF n (s.itemsList.length * 2) s.items s.itemsList h 0 h1 h2 h3 h4
      obtain ⟨e1, e2⟩ := evictLoop_hand n (s.itemsList.length * 2) s.items s.itemsList h 0 hlt
      refine ⟨w1, w2, w3, w4, ?_⟩
      cases hr : (evictLoop n (s.itemsList.length * 2) s.items s.itemsList h 0).clockHand with
      | none => exact handOK_of_none hr (e1 hr)
      | some h' => exact handOK_of_some hr (e2 h' hr)

/-- The referenced-marking rewrite of `Get` leaves every node's key in place. -/
theorem map_key_getUpd (lst : List ClockItem) (key : String) :
    ((lst.map (fun it => if it.key = key then { it with referenced := true } else it)).map
      ClockItem.key) = lst.map ClockItem.key := by
  refine map_key_map_of_key_eq (fun it => ?_)
  by_cases hk : it.key = key
  · rw [if_pos hk]
  · rw [if_neg hk]

/-- The in-place update of `Put` on an existing key leaves every node's key in place. -/
theorem map_key_putUpd (lst : List ClockItem) (key : String) (ts : Int) :
    ((lst.map (fun it =>
      if it.key = key then { it with referenced := true, size := ts } else it)).map
      ClockItem.key) = lst.map ClockItem.key := by
  refine map_key_map_of_key_eq (fun it => ?_)
  by_cases hk : it.key = key
  · rw [if_pos hk]
  · rw [if_neg hk]

theorem CacheShard.getStep_WF {s : CacheShard} (key : String) (hwf : WFShard s) :
    WFShard (s.getStep key).1 := by
  obtain ⟨h1, h2, h3, h4, h5⟩ := hwf
  unfold CacheShard.getStep
  split
  · refine ⟨h1, by rw [map_key_getUpd]; exact h2, ?_, ?_, ?_⟩
    · intro k hk
      rw [map_key_getUpd]
      exact h3 k hk
    · intro k hk
      rw [map_key_getUpd] at hk
      exact h4 k hk
    · cases hh : s.clockHand with
      | none => exact handOK_of_none rfl (by rw [handOK_none h5 hh]; rfl)
      | some hd => exact handOK_of_some rfl (by rw [List.length_map]; exact handOK_some h5 hh)
  · exact ⟨h1, h2, h3, h4, h5⟩

theorem CacheShard.putStep_WF {s : CacheShard} (key value : String) (hwf : WFShard s) :
    WFShard (s.putStep key value).1 := by
  obtain ⟨h1, h2, h3, h4, h5⟩ := hwf
  unfold CacheShard.putStep
  split
  · refine ⟨by rw [map_fst_replaceA]; exact h1, by rw [map_key_putUpd]; exact h2, ?_, ?_, ?_⟩
    · intro k hk
      rw [map_key_putUpd]
      rw [map_fst_replaceA] at hk
      exact h3 k hk
    · intro k hk
      rw [map_key_putUpd] at hk
      rw [map_fst_replaceA]
      exact h4 k hk
    · cases hh : s.clockHand with
      | none => exact handOK_of_none rfl (by rw [handOK_none h5 hh]; rfl)
      | some hd => exact handOK_of_some rfl (by rw [List.length_map]; exact handOK_some h5 hh)
  · rename_i hl
    have hnotitems : key ∉ s.items.map Prod.fst := lookupA_eq_none.1 hl
    have hnotlst : key ∉ s.itemsList.map ClockItem.key := fun hmem => hnotitems (h4 key hmem)
    refine ⟨?_, ?_, ?_, ?_, ?_⟩
    · rw [List.map_append, List.nodup_append]
      refine ⟨h1, List.nodup_singleton key, ?_⟩
      intro a ha hb
      rw [List.map_singleton, List.mem_singleton] at hb
      subst hb
      exact hnotitems ha
    · rw [List.map_append, List.nodup_append]
      refine ⟨h2, List.nodup_singleton key, ?_⟩
      intro a ha hb
      rw [List.map_singleton, List.mem_singleton] at hb
      subst hb
      exact hnotlst ha
    · intro k hk
      rw [List.map_append, List.mem_append] at hk ⊢
      rcases hk with hk | hk
      · exact Or.inl (h3 k hk)
      · exact Or.inr hk
    · intro k hk
      rw [List.map_append, List.mem_append] at hk ⊢
      rcases hk with hk | hk
      · exact Or.inl (h4 k hk)
      · exact Or.inr hk
    · cases hh : s.clockHand with
      | none =>
        refine handOK_of_some (h := s.itemsList.length) rfl ?_
        rw [List.length_append, List.length_singleton]
        omega
      | some hd =>
        refine handOK_of_some (h := hd) rfl ?_
        have := handOK_some h5 hh
        rw [List.length_append, List.length_singleton]
        omega

/-! ### Cache-level lemmas -/

theorem getElem?_set_self {α : Type} {l : List α} {i : Nat} {a : α} (h : i < l.length) :
    (l.set i a)[i]? = some a := by
  simp [List.getElem?_set_self', List.getElem?_eq_getElem h]

theorem putStep_lookup_self (s : CacheShard) (key value : String) :
    lookupA (s.putStep key value).1.items key = some value := by
  unfold CacheShard.putStep
  split
  · rename_i oldVal hl
    exact lookupA_replaceA_self hl
  · rename_i hl
    exact lookupA_snoc_self hl

theorem putStep_delta {s : CacheShard} {key value oldVal : String}
    (h : lookupA s.items key = some oldVal) :
    (s.putStep key value).2 = (goLen value : Int) - (goLen oldVal : Int) := by
  unfold CacheShard.putStep
  rw [h]

theorem getStep_of_lookup {s : CacheShard} {key v : String}
    (h : lookupA s.items key = some v) : (s.getStep key).2 = (v, true) := by
  unfold CacheShard.getStep
  rw [h]

theorem getStep_of_none {s : CacheShard} {key : String}
    (h : lookupA s.items key = none) : (s.getStep key).2 = ("", false) := by
  unfold CacheShard.getStep
  rw [h]

theorem Put_shardCount (c : ShardedCache) (key value : String) :
    (c.Put key value).shardCount = c.shardCount := by
  unfold ShardedCache.Put
  cases c.shards[c.getShardIdx key]? <;> rfl

theorem Put_memUsage {c : ShardedCache} (key value : String) {s : CacheShard}
    (hs : c.shards[c.getShardIdx key]? = some s) :
    (c.Put key value).memUsage = c.memUsage + (s.putStep key value).2 := by
  unfold ShardedCache.Put
  rw [hs]

theorem Put_shards {c : ShardedCache} (key value : String) {s : CacheShard}
    (hs : c.shards[c.getShardIdx key]? = some s) :
    (c.Put key value).shards = c.shards.set (c.getShardIdx key) (s.putStep key value).1 := by
  unfold ShardedCache.Put
  rw [hs]

theorem getShardIdx_lt {c : ShardedCache} (key : String)
    (hlen : c.shards.length = c.shardCount) (hpos : 0 < c.shardCount) :
    c.getShardIdx key < c.shards.length := by
  rw [hlen]
  exact Nat.mod_lt _ hpos

theorem shards_get?_some {c : ShardedCache} (key : String)
    (hlen : c.shards.length = c.shardCount) (hpos : 0 < c.shardCount) :
    ∃ s, c.shards[c.getShardIdx key]? = some s := by
  have hidx := getShardIdx_lt key hlen hpos
  exact ⟨c.shards.get ⟨_, hidx⟩, by rw [List.getElem?_eq_getElem hidx]; rfl⟩

theorem Get_memUsage (c : ShardedCache) (key : String) :
    (c.Get key).1.memUsage = c.memUsage := by
  unfold ShardedCache.Get
  cases c.shards[c.getShardIdx key]? <;> rfl

theorem Get_not_found {c : ShardedCache} {key : String}
    (h : ∀ s ∈ c.shards, lookupA s.items key = none) : (c.Get key).2 = ("", false) := by
  unfold ShardedCache.Get
  cases hs : c.shards[c.getShardIdx key]? with
  | none => rfl
  | some s => exact getStep_of_none (h s (mem_of_getElem?' hs))

theorem Put_Get_same (c : ShardedCache) (k v : String)
    (hlen : c.shards.length = c.shardCount) (hpos : 0 < c.shardCount) :
    ((c.Put k v).Get k).2 = (v, true) := by
  have hidx := getShardIdx_lt k hlen hpos
  obtain ⟨s, hs⟩ := shards_get?_some k hlen hpos
  have hshards := Put_shards k v hs
  have hcount := Put_shardCount c k v
  have hidx2 : (c.Put k v).getShardIdx k = c.getShardIdx k := by
    unfold ShardedCache.getShardIdx
    rw [hcount]
  have hget2 : (c.Put k v).shards[(c.Put k v).getShardIdx k]? = some (s.putStep k v).1 := by
    rw [hidx2, hshards]
    exact getElem?_set_self hidx
  unfold ShardedCache.Get
  rw [hget2]
  exact getStep_of_lookup (putStep_lookup_self s k v)

/-! ### evictBatch loop lemmas -/

theorem CacheShard.evict_of_empty {s : CacheShard} (h : s.itemsList = []) (p : Nat) :
    s.evict p = (s, 0) := by
  unfold CacheShard.evict
  split
  · rfl
  · rw [if_pos (by rw [h]; rfl)]

theorem evictBatchLoop_le_of_one (count : Nat) :
    ∀ (shards : List CacheShard) (ev : Nat), ev ≤ count →
      (evictBatchLoop count 1 shards ev).2 ≤ count := by
  intro shards
  induction shards with
  | nil =>
    intro ev h
    exact h
  | cons s rest ih =>
    intro ev h
    rw [evictBatchLoop]
    split
    · exact h
    · rename_i hc
      rw [consShard_snd]
      refine ih _ ?_
      have he := CacheShard.evict_evicted_le s 1
      omega

theorem evictBatchLoop_le_mul (count p : Nat) :
    ∀ (shards : List CacheShard) (ev : Nat),
      (evictBatchLoop count p shards ev).2 ≤ ev + shards.length * p := by
  intro shards
  induction shards with
  | nil =>
    intro ev
    simp [evictBatchLoop]
  | cons s rest ih =>
    intro ev
    rw [evictBatchLoop]
    split
    · exact Nat.le_add_right _ _
    · rw [List.length_cons, Nat.succ_mul, consShard_snd]
      have he := CacheShard.evict_evicted_le s p
      have hr := ih (ev + (s.evict p).2)
      generalize rest.length * p = q at hr ⊢
      omega

theorem evictBatchLoop_entries (count p : Nat) :
    ∀ (shards : List CacheShard) (ev : Nat),
      ((evictBatchLoop count p shards ev).1.map (fun s => s.itemsList.length)).sum +
        (evictBatchLoop count p shards ev).2 =
      (shards.map (fun s => s.itemsList.length)).sum + ev := by
  intro shards
  induction shards with
  | nil =>
    intro ev
    simp [evictBatchLoop]
  | cons s rest ih =>
    intro ev
    rw [evictBatchLoop]
    split
    · rfl
    · have hr := ih (ev + (s.evict p).2)
      have hs := CacheShard.evict_length_eq s p
      rw [consShard_fst, consShard_snd, List.map_cons, List.sum_cons, List.map_cons, List.sum_cons]
      omega

theorem evictBatchLoop_empty (count p : Nat) :
    ∀ (shards : List CacheShard) (ev : Nat), (∀ s ∈ shards, s.itemsList = []) →
      evictBatchLoop count p shards ev = (shards, ev) := by
  intro shards
  induction shards with
  | nil =>
    intro ev _
    rfl
  | cons s rest ih =>
    intro ev h
    rw [evictBatchLoop]
    split
    · rfl
    · rw [CacheShard.evict_of_empty (h s (List.mem_cons_self s rest)) p]
      rw [show ((s, 0) : CacheShard × Nat).2 = 0 from rfl, Nat.add_zero,
        ih _ (fun x hx => h x (List.mem_cons_of_mem s hx))]
      rfl

theorem CacheShard.evict_handOK {s : CacheShard} (n : Nat) (hok : handOK s) :
    handOK (s.evict n).1 := by
  unfold CacheShard.evict
  split
  · exact hok
  · rename_i h hh
    have hlt : h < s.itemsList.length := handOK_some hok hh
    split
    · exact hok
    · obtain ⟨e1, e2⟩ := evictLoop_hand n (s.itemsList.length * 2) s.items s.itemsList h 0 hlt
      cases hr : (evictLoop n (s.itemsList.length * 2) s.items s.itemsList h 0).clockHand with
      | none => exact handOK_of_none hr (e1 hr)
      | some h' => exact handOK_of_some hr (e2 h' hr)

theorem handOK_empty_none {s : CacheShard} (hok : handOK s) (he : s.itemsList = []) :
    s.clockHand = none := by
  cases hh : s.clockHand with
  | none => rfl
  | some h =>
    have := handOK_some hok hh
    rw [he] at this
    exact absurd this (Nat.not_lt_zero h)

/-! ### Claim theorems -/

/-- C6: `EvictBatch(totalCount)` with `totalCount ≥ 1` on a well-formed
cache removes at most `totalCount` entries (the returned count equals the
number of queue nodes that disappeared), and on an empty cache it removes
nothing and leaves the state unchanged; by definition it proceeds by
`perShard = max(1, totalCount / shardCount)` sweeps over the shards in
index order, stopping when the running total reaches `totalCount`. -/
theorem C6_evictBatch_bound (c : ShardedCache) (n : Nat) (hn : 1 ≤ n)
    (hlen : c.shards.length = c.shardCount) (hpos : 0 < c.shardCount) :
    (c.evictBatch n).2 ≤ n ∧
    totalEntries (c.evictBatch n).1 + (c.evictBatch n).2 = totalEntries c ∧
    ((∀ s ∈ c.shards, s.itemsList = []) →
      (c.evictBatch n).2 = 0 ∧ (c.evictBatch n).1 = c) := by
  have hP : (c.evictBatch n).2 =
      (evictBatchLoop n (if n / c.shardCount < 1 then 1 else n / c.shardCount) c.shards 0).2 := rfl
  have hS : (c.evictBatch n).1.shards =
      (evictBatchLoop n (if n / c.shardCount < 1 then 1 else n / c.shardCount) c.shards 0).1 := rfl
  refine ⟨?_, ?_, ?_⟩
  · rw [hP]
    by_cases hdiv : n / c.shardCount < 1
    · rw [if_pos hdiv]
      exact evictBatchLoop_le_of_one n c.shards 0 (Nat.zero_le n)
    · rw [if_neg hdiv]
      have h1 := evictBatchLoop_le_mul n (n / c.shardCount) c.shards 0
      have h2 : c.shards.length * (n / c.shardCount) ≤ n := by
        rw [hlen]
        calc c.shardCount * (n / c.shardCount)
            = n / c.shardCount * c.shardCount := Nat.mul_comm _ _
          _ ≤ n := Nat.div_mul_le_self n c.shardCount
      omega
  · unfold totalEntries
    rw [hS, hP]
    have := evictBatchLoop_entries n
      (if n / c.shardCount < 1 then 1 else n / c.shardCount) c.shards 0
    omega
  · intro hemp
    have hloop := evictBatchLoop_empty n
      (if n / c.shardCount < 1 then 1 else n / c.shardCount) c.shards 0 hemp
    constructor
    · rw [hP, hloop]
    · show ({ c with shards :=
        (evictBatchLoop n (if n / c.shardCount < 1 then 1 else n / c.shardCount)
          c.shards 0).1 } : ShardedCache) = c
      rw [hloop]

/-- C6 witness. -/
theorem C6_evictBatch_bound_witness :
    (1 ≤ 3 ∧ newCache.shards.length = newCache.shardCount ∧ 0 < newCache.shardCount) ∧
    ((newCache.evictBatch 3).2 ≤ 3 ∧
      totalEntries (newCache.evictBatch 3).1 + (newCache.evictBatch 3).2 = totalEntries newCache ∧
      ((∀ s ∈ newCache.shards, s.itemsList = []) →
        (newCache.evictBatch 3).2 = 0 ∧ (newCache.evictBatch 3).1 = newCache)) :=
  ⟨⟨by decide, by decide, by decide⟩,
    C6_evictBatch_bound newCache 3 (by decide) (by decide) (by decide)⟩

/-- C7: the shard-level CLOCK sweep is total and bounded: it never evicts
more than requested, the loop entered by `evict` performs at most
`2 * itemsList.length` inspection steps (the `attempts` counter), and when
the sweep empties the shard the hand is cleared to `none`. -/
theorem C7_evict_bounded (s : CacheShard) (n : Nat) (hok : handOK s) :
    (s.evict n).2 ≤ n ∧
    (∀ h0, s.clockHand = some h0 → s.itemsList ≠ [] →
      (evictLoop n (s.itemsList.length * 2) s.items s.itemsList h0 0).steps ≤
        s.itemsList.length * 2) ∧
    ((s.evict n).1.itemsList = [] → (s.evict n).1.clockHand = none) := by
  refine ⟨CacheShard.evict_evicted_le s n, ?_, ?_⟩
  · intro h0 _ _
    exact evictLoop_steps_le n _ _ _ _ _
  · intro hout
    exact handOK_empty_none (CacheShard.evict_handOK n hok) hout

/-- C7 witness: a two-entry shard, both entries referenced, swept with a
request larger than the shard. -/
theorem C7_evict_bounded_witness :
    handOK (CacheShard.mk [("a", "1"), ("b", "2")]
      [⟨"a", true, 2⟩, ⟨"b", true, 2⟩] (some 0)) ∧
    (((CacheShard.mk [("a", "1"), ("b", "2")]
        [⟨"a", true, 2⟩, ⟨"b", true, 2⟩] (some 0)).evict 5).2 ≤ 5 ∧
      (∀ h0, (CacheShard.mk [("a", "1"), ("b", "2")]
          [⟨"a", true, 2⟩, ⟨"b", true, 2⟩] (some 0)).clockHand = some h0 →
        (CacheShard.mk [("a", "1"), ("b", "2")]
          [⟨"a", true, 2⟩, ⟨"b", true, 2⟩] (some 0)).itemsList ≠ [] →
        (evictLoop 5 ((CacheShard.mk [("a", "1"), ("b", "2")]
            [⟨"a", true, 2⟩, ⟨"b", true, 2⟩] (some 0)).itemsList.length * 2)
          (CacheShard.mk [("a", "1"), ("b", "2")]
            [⟨"a", true, 2⟩, ⟨"b", true, 2⟩] (some 0)).items
          (CacheShard.mk [("a", "1"), ("b", "2")]
            [⟨"a", true, 2⟩, ⟨"b", true, 2⟩] (some 0)).itemsList h0 0).steps ≤
          (CacheShard.mk [("a", "1"), ("b", "2")]
            [⟨"a", true, 2⟩, ⟨"b", true, 2⟩] (some 0)).itemsList.length * 2) ∧
      (((CacheShard.mk [("a", "1"), ("b", "2")]
          [⟨"a", true, 2⟩, ⟨"b", true, 2⟩] (some 0)).evict 5).1.itemsList = [] →
        ((CacheShard.mk [("a", "1"), ("b", "2")]
          [⟨"a", true, 2⟩, ⟨"b", true, 2⟩] (some 0)).evict 5).1.clockHand = none)) :=
  ⟨by decide,
    C7_evict_bounded (CacheShard.mk [("a", "1"), ("b", "2")]
      [⟨"a", true, 2⟩, ⟨"b", true, 2⟩] (some 0)) 5 (by decide)⟩

/-- C8: every operation (Lookup, Upsert, Evict) preserves the shard
invariant: lookup-map keys and eviction-queue nodes are in bijection
(both key lists duplicate-free with identical membership), and the clock
hand is a live queue index when the shard is non-empty and `none` when it
is empty. -/
theorem C8_operations_preserve_invariant (s : CacheShard) (k v : String) (n : Nat)
    (hwf : WFShard s) :
    WFShard (s.getStep k).1 ∧ WFShard (s.putStep k v).1 ∧ WFShard (s.evict n).1 :=
  ⟨CacheShard.getStep_WF k hwf, CacheShard.putStep_WF k v hwf, CacheShard.evict_WF n hwf⟩

/-- C8 witness: a concrete two-entry well-formed shard. -/
theorem C8_operations_preserve_invariant_witness :
    WFShard (CacheShard.mk [("a", "1"), ("b", "2")]
      [⟨"a", true, 2⟩, ⟨"b", false, 2⟩] (some 1)) ∧
    (WFShard ((CacheShard.mk [("a", "1"), ("b", "2")]
        [⟨"a", true, 2⟩, ⟨"b", false, 2⟩] (some 1)).getStep "a").1 ∧
      WFShard ((CacheShard.mk [("a", "1"), ("b", "2")]
        [⟨"a", true, 2⟩, ⟨"b", false, 2⟩] (some 1)).putStep "a" "33").1 ∧
      WFShard ((CacheShard.mk [("a", "1"), ("b", "2")]
        [⟨"a", true, 2⟩, ⟨"b", false, 2⟩] (some 1)).evict 1).1) :=
  ⟨by decide,
    C8_operations_preserve_invariant (CacheShard.mk [("a", "1"), ("b", "2")]
      [⟨"a", true, 2⟩, ⟨"b", false, 2⟩] (some 1)) "a" "33" 1 (by decide)⟩

theorem putStep_exists_eq {s : CacheShard} {k v oldVal : String}
    (hold : lookupA s.items k = some oldVal) :
    s.putStep k v =
      ({ s with
          items := replaceA s.items k v
          itemsList := s.itemsList.map (fun it =>
            if it.key = k then ⟨it.key, true, (goLen k : Int) + (goLen v : Int)⟩ else it) },
        (goLen v : Int) - (goLen oldVal : Int)) := by
  unfold CacheShard.putStep
  rw [hold]

/-- C9: `Upsert` on an existing key replaces the value, recomputes the
node's size, forces `referenced`, and changes nothing else: the queue
keeps its length and per-index keys, every node with a different key is
untouched, the hand does not move, the key set is unchanged, other keys'
values are unchanged, and the reported delta is the value-length
difference. -/
theorem C9_update_in_place (s : CacheShard) (k v oldVal : String)
    (hold : lookupA s.items k = some oldVal) :
    (s.putStep k v).1.clockHand = s.clockHand ∧
    (s.putStep k v).1.itemsList.length = s.itemsList.length ∧
    (∀ i : Nat, ((s.putStep k v).1.itemsList[i]?).map ClockItem.key =
      (s.itemsList[i]?).map ClockItem.key) ∧
    (∀ (i : Nat) (it : ClockItem), s.itemsList[i]? = some it → it.key ≠ k →
      (s.putStep k v).1.itemsList[i]? = some it) ∧
    (∀ (i : Nat) (it : ClockItem), s.itemsList[i]? = some it → it.key = k →
      (s.putStep k v).1.itemsList[i]? =
        some ⟨k, true, (goLen k : Int) + (goLen v : Int)⟩) ∧
    (s.putStep k v).1.items.map Prod.fst = s.items.map Prod.fst ∧
    lookupA (s.putStep k v).1.items k = some v ∧
    (∀ k', k' ≠ k → lookupA (s.putStep k v).1.items k' = lookupA s.items k') ∧
    (s.putStep k v).2 = (goLen v : Int) - (goLen oldVal : Int) := by
  rw [putStep_exists_eq hold]
  refine ⟨rfl, List.length_map _ _, ?_, ?_, ?_, map_fst_replaceA,
    lookupA_replaceA_self hold, fun k' h => lookupA_replaceA_ne h, rfl⟩
  · intro i
    rw [List.getElem?_map]
    cases hi : s.itemsList[i]? with
    | none => rfl
    | some it =>
      by_cases hk : it.key = k
      · simp [hk]
      · simp [hk]
  · intro i it hi hk
    rw [List.getElem?_map, hi]
    simp [hk]
  · intro i it hi hk
    rw [List.getElem?_map, hi]
    simp [hk]

/-- C9 witness. -/
theorem C9_update_in_place_witness :
    lookupA (CacheShard.mk [("a", "1"), ("b", "2")]
      [⟨"a", false, 2⟩, ⟨"b", false, 2⟩] (some 1)).items "a" = some "1" ∧
    (((CacheShard.mk [("a", "1"), ("b", "2")]
        [⟨"a", false, 2⟩, ⟨"b", false, 2⟩] (some 1)).putStep "a" "33").1.clockHand =
        (CacheShard.mk [("a", "1"), ("b", "2")]
          [⟨"a", false, 2⟩, ⟨"b", false, 2⟩] (some 1)).clockHand ∧
      ((CacheShard.mk [("a", "1"), ("b", "2")]
        [⟨"a", false, 2⟩, ⟨"b", false, 2⟩] (some 1)).putStep "a" "33").1.itemsList.length =
        (CacheShard.mk [("a", "1"), ("b", "2")]
          [⟨"a", false, 2⟩, ⟨"b", false, 2⟩] (some 1)).itemsList.length ∧
      (∀ i : Nat, (((CacheShard.mk [("a", "1"), ("b", "2")]
          [⟨"a", false, 2⟩, ⟨"b", false, 2⟩] (some 1)).putStep "a" "33").1.itemsList[i]?).map
          ClockItem.key =
        ((CacheShard.mk [("a", "1"), ("b", "2")]
          [⟨"a", false, 2⟩, ⟨"b", false, 2⟩] (some 1)).itemsList[i]?).map ClockItem.key) ∧
      (∀ (i : Nat) (it : ClockItem), (CacheShard.mk [("a", "1"), ("b", "2")]
          [⟨"a", false, 2⟩, ⟨"b", false, 2⟩] (some 1)).itemsList[i]? = some it → it.key ≠ "a" →
        ((CacheShard.mk [("a", "1"), ("b", "2")]
          [⟨"a", false, 2⟩, ⟨"b", false, 2⟩] (some 1)).putStep "a" "33").1.itemsList[i]? =
          some it) ∧
      (∀ (i : Nat) (it : ClockItem), (CacheShard.mk [("a", "1"), ("b", "2")]
          [⟨"a", false, 2⟩, ⟨"b", false, 2⟩] (some 1)).itemsList[i]? = some it → it.key = "a" →
        ((CacheShard.mk [("a", "1"), ("b", "2")]
          [⟨"a", false, 2⟩, ⟨"b", false, 2⟩] (some 1)).putStep "a" "33").1.itemsList[i]? =
          some ⟨"a", true, (goLen "a" : Int) + (goLen "33" : Int)⟩) ∧
      ((CacheShard.mk [("a", "1"), ("b", "2")]
        [⟨"a", false, 2⟩, ⟨"b", false, 2⟩] (some 1)).putStep "a" "33").1.items.map Prod.fst =
        (CacheShard.mk [("a", "1"), ("b", "2")]
          [⟨"a", false, 2⟩, ⟨"b", false, 2⟩] (some 1)).items.map Prod.fst ∧
      lookupA (((CacheShard.mk [("a", "1"), ("b", "2")]
        [⟨"a", false, 2⟩, ⟨"b", false, 2⟩] (some 1)).putStep "a" "33").1).items "a" =
        some "33" ∧
      (∀ k', k' ≠ "a" → lookupA (((CacheShard.mk [("a", "1"), ("b", "2")]
          [⟨"a", false, 2⟩, ⟨"b", false, 2⟩] (some 1)).putStep "a" "33").1).items k' =
        lookupA (CacheShard.mk [("a", "1"), ("b", "2")]
          [⟨"a", false, 2⟩, ⟨"b", false, 2⟩] (some 1)).items k') ∧
      ((CacheShard.mk [("a", "1"), ("b", "2")]
        [⟨"a", false, 2⟩, ⟨"b", false, 2⟩] (some 1)).putStep "a" "33").2 =
        (goLen "33" : Int) - (goLen "1" : Int)) :=
  ⟨by decide,
    C9_update_in_place (CacheShard.mk [("a", "1"), ("b", "2")]
      [⟨"a", false, 2⟩, ⟨"b", false, 2⟩] (some 1)) "a" "33" "1" (by decide)⟩

theorem Get_counter_indep (sh : List CacheShard) (sc : Nat) (m1 m2 : Int) (k : String) :
    ((⟨sh, sc, m1⟩ : ShardedCache).Get k).2 = ((⟨sh, sc, m2⟩ : ShardedCache).Get k).2 ∧
    ((⟨sh, sc, m1⟩ : ShardedCache).Get k).1.shards =
      ((⟨sh, sc, m2⟩ : ShardedCache).Get k).1.shards ∧
    ((⟨sh, sc, m1⟩ : ShardedCache).Get k).1.memUsage = m1 := by
  simp only [ShardedCache.Get, ShardedCache.getShardIdx]
  cases hs : sh[fnv32 k % sc]? with
  | none => exact ⟨rfl, rfl, rfl⟩
  | some s => exact ⟨rfl, rfl, rfl⟩

theorem Put_counter_indep (sh : List CacheShard) (sc : Nat) (m1 m2 : Int) (k v : String) :
    ((⟨sh, sc, m1⟩ : ShardedCache).Put k v).shards =
      ((⟨sh, sc, m2⟩ : ShardedCache).Put k v).shards ∧
    ((⟨sh, sc, m1⟩ : ShardedCache).Put k v).memUsage - m1 =
      ((⟨sh, sc, m2⟩ : ShardedCache).Put k v).memUsage - m2 := by
  simp only [ShardedCache.Put, ShardedCache.getShardIdx]
  cases hs : sh[fnv32 k % sc]? with
  | none => exact ⟨rfl, by ring⟩
  | some s => exact ⟨rfl, by ring⟩

theorem evictBatch_counter_indep (sh : List CacheShard) (sc : Nat) (m1 m2 : Int) (n : Nat) :
    ((⟨sh, sc, m1⟩ : ShardedCache).evictBatch n).2 =
      ((⟨sh, sc, m2⟩ : ShardedCache).evictBatch n).2 ∧
    ((⟨sh, sc, m1⟩ : ShardedCache).evictBatch n).1.shards =
      ((⟨sh, sc, m2⟩ : ShardedCache).evictBatch n).1.shards ∧
    ((⟨sh, sc, m1⟩ : ShardedCache).evictBatch n).1.memUsage = m1 :=
  ⟨rfl, rfl, rfl⟩

theorem monitorStep_counter_indep (sh : List CacheShard) (sc : Nat) (m1 m2 : Int)
    (alloc sys : Nat) :
    (monitorStep ⟨sh, sc, m1⟩ alloc sys).shards = (monitorStep ⟨sh, sc, m2⟩ alloc sys).shards ∧
    (monitorStep ⟨sh, sc, m1⟩ alloc sys).memUsage = m1 := by
  unfold monitorStep
  cases ht : monitorTrigger alloc sys with
  | none => exact ⟨rfl, rfl⟩
  | some n => exact ⟨rfl, rfl⟩

/-- C10: no operation reads the global memory counter.  Two caches that
agree on everything but `memUsage` produce identical lookup results,
identical post-state shards, identical eviction counts, and identical
monitor behaviour; the counter is only ever written (each `Put` adds the
same delta to either counter; `Get`, `evictBatch` and the monitor leave it
untouched), and the eviction-trigger decision `monitorTrigger` is a
function of the sampled runtime statistics alone. -/
theorem C10_counter_write_only (c1 c2 : ShardedCache) (k v : String) (n alloc sys : Nat)
    (hs : c1.shards = c2.shards) (hc : c1.shardCount = c2.shardCount) :
    ((c1.Get k).2 = (c2.Get k).2 ∧ (c1.Get k).1.shards = (c2.Get k).1.shards ∧
      (c1.Get k).1.memUsage = c1.memUsage) ∧
    ((c1.Put k v).shards = (c2.Put k v).shards ∧
      (c1.Put k v).memUsage - c1.memUsage = (c2.Put k v).memUsage - c2.memUsage) ∧
    ((c1.evictBatch n).2 = (c2.evictBatch n).2 ∧
      (c1.evictBatch n).1.shards = (c2.evictBatch n).1.shards ∧
      (c1.evictBatch n).1.memUsage = c1.memUsage) ∧
    ((monitorStep c1 alloc sys).shards = (monitorStep c2 alloc sys).shards ∧
      (monitorStep c1 alloc sys).memUsage = c1.memUsage) := by
  obtain ⟨sh1, sc1, m1⟩ := c1
  obtain ⟨sh2, sc2, m2⟩ := c2
  simp only at hs hc
  subst hs
  subst hc
  exact ⟨Get_counter_indep sh1 sc1 m1 m2 k,
    Put_counter_indep sh1 sc1 m1 m2 k v,
    evictBatch_counter_indep sh1 sc1 m1 m2 n,
    monitorStep_counter_indep sh1 sc1 m1 m2 alloc sys⟩

/-- C10 witness: two single-shard caches that differ only in the counter. -/
theorem C10_counter_write_only_witness :
    ((⟨[emptyShard], 1, 0⟩ : ShardedCache).shards =
        (⟨[emptyShard], 1, 77⟩ : ShardedCache).shards ∧
      (⟨[emptyShard], 1, 0⟩ : ShardedCache).shardCount =
        (⟨[emptyShard], 1, 77⟩ : ShardedCache).shardCount) ∧
    (((⟨[emptyShard], 1, 0⟩ : ShardedCache).Get "a").2 =
        ((⟨[emptyShard], 1, 77⟩ : ShardedCache).Get "a").2 ∧
      ((⟨[emptyShard], 1, 0⟩ : ShardedCache).Get "a").1.shards =
        ((⟨[emptyShard], 1, 77⟩ : ShardedCache).Get "a").1.shards ∧
      ((⟨[emptyShard], 1, 0⟩ : ShardedCache).Get "a").1.memUsage =
        (⟨[emptyShard], 1, 0⟩ : ShardedCache).memUsage) ∧
    (((⟨[emptyShard], 1, 0⟩ : ShardedCache).Put "a" "1").shards =
        ((⟨[emptyShard], 1, 77⟩ : ShardedCache).Put "a" "1").shards ∧
      ((⟨[emptyShard], 1, 0⟩ : ShardedCache).Put "a" "1").memUsage -
          (⟨[emptyShard], 1, 0⟩ : ShardedCache).memUsage =
        ((⟨[emptyShard], 1, 77⟩ : ShardedCache).Put "a" "1").memUsage -
          (⟨[emptyShard], 1, 77⟩ : ShardedCache).memUsage) ∧
    (((⟨[emptyShard], 1, 0⟩ : ShardedCache).evictBatch 2).2 =
        ((⟨[emptyShard], 1, 77⟩ : ShardedCache).evictBatch 2).2 ∧
      ((⟨[emptyShard], 1, 0⟩ : ShardedCache).evictBatch 2).1.shards =
        ((⟨[emptyShard], 1, 77⟩ : ShardedCache).evictBatch 2).1.shards ∧
      ((⟨[emptyShard], 1, 0⟩ : ShardedCache).evictBatch 2).1.memUsage =
        (⟨[emptyShard], 1, 0⟩ : ShardedCache).memUsage) ∧
    ((monitorStep ⟨[emptyShard], 1, 0⟩ 9 10).shards =
        (monitorStep ⟨[emptyShard], 1, 77⟩ 9 10).shards ∧
      (monitorStep ⟨[emptyShard], 1, 0⟩ 9 10).memUsage =
        (⟨[emptyShard], 1, 0⟩ : ShardedCache).memUsage) :=
  ⟨⟨by decide, by decide⟩,
    C10_counter_write_only ⟨[emptyShard], 1, 0⟩ ⟨[emptyShard], 1, 77⟩ "a" "1" 2 9 10
      (by decide) (by decide)⟩

/-- C2: immediately after `Upsert(k, v)` — with no eviction and no further
upsert of `k` in between — `Lookup(k)` returns `(v, true)`; and `Lookup`
of a key stored in no shard (never inserted, or evicted) returns
`("", false)`. -/
theorem C2_upsert_then_lookup (c : ShardedCache) (k v : String)
    (hlen : c.shards.length = c.shardCount) (hpos : 0 < c.shardCount) :
    ((c.Put k v).Get k).2 = (v, true) ∧
    (∀ (d : ShardedCache) (k' : String),
      (∀ s ∈ d.shards, lookupA s.items k' = none) → (d.Get k').2 = ("", false)) :=
  ⟨Put_Get_same c k v hlen hpos, fun _ _ h => Get_not_found h⟩

/-- C2 witness: the fresh cache of `NewCache`. -/
theorem C2_upsert_then_lookup_witness :
    (newCache.shards.length = newCache.shardCount ∧ 0 < newCache.shardCount) ∧
    (((newCache.Put "a" "1").Get "a").2 = ("1", true) ∧
      (∀ (d : ShardedCache) (k' : String),
        (∀ s ∈ d.shards, lookupA s.items k' = none) → (d.Get k').2 = ("", false))) :=
  ⟨⟨by decide, by decide⟩, C2_upsert_then_lookup newCache "a" "1" (by decide) (by decide)⟩

/-- C3: for an existing or fresh key alike, the second of two upserts of
the same key changes the global counter by exactly the byte-length
difference of the two values, independently of the key length. -/
theorem C3_second_upsert_delta (c : ShardedCache) (k v1 v2 : String)
    (hlen : c.shards.length = c.shardCount) (hpos : 0 < c.shardCount) :
    ((c.Put k v1).Put k v2).memUsage - (c.Put k v1).memUsage
      = (goLen v2 : Int) - (goLen v1 : Int) := by
  obtain ⟨s, hs⟩ := shards_get?_some k hlen hpos
  have hidx := getShardIdx_lt k hlen hpos
  have hidx2 : (c.Put k v1).getShardIdx k = c.getShardIdx k := by
    unfold ShardedCache.getShardIdx
    rw [Put_shardCount]
  have hget2 : (c.Put k v1).shards[(c.Put k v1).getShardIdx k]? = some (s.putStep k v1).1 := by
    rw [hidx2, Put_shards k v1 hs]
    exact getElem?_set_self hidx
  rw [Put_memUsage k v2 hget2, putStep_delta (putStep_lookup_self s k v1)]
  ring

/-- C3 witness. -/
theorem C3_second_upsert_delta_witness :
    (newCache.shards.length = newCache.shardCount ∧ 0 < newCache.shardCount) ∧
    ((newCache.Put "key" "1").Put "key" "333").memUsage -
        (newCache.Put "key" "1").memUsage = (goLen "333" : Int) - (goLen "1" : Int) :=
  ⟨⟨by decide, by decide⟩,
    C3_second_upsert_delta newCache "key" "1" "333" (by decide) (by decide)⟩

/-- C4 (counterexample): from the fresh cache, `Upsert("a","1")` then
`Upsert("a","22")` moves the global counter by +3, not +1: the first call
adds key bytes + value bytes = 2, the second adds 1 more. -/
theorem C4_counterexample :
    ¬(((newCache.Put "a" "1").Put "a" "22").memUsage - newCache.memUsage = 1) := by decide

/-- C4 (amended): the scenario leaves `Lookup("a") = ("22", true)` and the
net counter change is +3 bytes: +2 from the first call (which counts key
and value bytes), then +1 more from the second. -/
theorem C4_amended_scenario :
    (((newCache.Put "a" "1").Put "a" "22").Get "a").2 = ("22", true) ∧
    (newCache.Put "a" "1").memUsage - newCache.memUsage = 2 ∧
    ((newCache.Put "a" "1").Put "a" "22").memUsage - newCache.memUsage = 3 := by
  refine ⟨?_, by decide, by decide⟩
  decide

/-! ### CLOCK sweep phase lemmas (fresh-inserts scenario) -/

theorem getElem?_append_length {α : Type} (A C : List α) (b : α) :
    (A ++ b :: C)[A.length]? = some b := by
  induction A with
  | nil => simp
  | cons a t ih =>
    rw [List.cons_append, List.length_cons, List.getElem?_cons_succ]
    exact ih

theorem set_append_length {α : Type} (A C : List α) (b b' : α) :
    (A ++ b :: C).set A.length b' = A ++ b' :: C := by
  induction A with
  | nil => rfl
  | cons a t ih =>
    rw [List.cons_append, List.length_cons, List.set_cons_succ, ih, List.cons_append]

theorem clearAll_of_unref : ∀ {lst : List ClockItem},
    (∀ it ∈ lst, it.referenced = false) → clearAll lst = lst := by
  intro lst
  induction lst with
  | nil => intro _; rfl
  | cons a t ih =>
    intro h
    unfold clearAll at ih ⊢
    rw [List.map_cons, ih (fun it hm => h it (List.mem_cons_of_mem _ hm))]
    have ha := h a (List.mem_cons_self a t)
    obtain ⟨k, r, z⟩ := a
    simp only at ha
    rw [ha]

theorem clearAll_append (A B : List ClockItem) :
    clearAll (A ++ B) = clearAll A ++ clearAll B := List.map_append _ A B

theorem clearAll_unref (lst : List ClockItem) : ∀ it ∈ clearAll lst, it.referenced = false := by
  intro it hmem
  unfold clearAll at hmem
  rw [List.mem_map] at hmem
  obtain ⟨x, _, hx⟩ := hmem
  rw [← hx]

theorem clearAll_map_key (lst : List ClockItem) :
    (clearAll lst).map ClockItem.key = lst.map ClockItem.key := by
  unfold clearAll
  rw [List.map_map]
  exact List.map_congr_left (fun it _ => rfl)

theorem clearAll_length (lst : List ClockItem) : (clearAll lst).length = lst.length :=
  List.length_map _ _

theorem mkItem_map_key (ps : List (String × String)) :
    (ps.map mkItem).map ClockItem.key = ps.map Prod.fst := by
  rw [List.map_map]
  exact List.map_congr_left (fun p _ => rfl)

@[simp] theorem bumpSteps_zero (r : EvictRes) : bumpSteps 0 r = r := by
  unfold bumpSteps
  simp

theorem bumpStep_eq_bumpSteps_one (r : EvictRes) : bumpStep r = bumpSteps 1 r := rfl

/-- One loop iteration on a referenced node: second chance. -/
theorem evictLoop_ref_step {count fuel ev : Nat} {items : List (String × String)}
    {lst : List ClockItem} {hand : Nat} {b : ClockItem}
    (hev : ev < count) (hget : lst[hand]? = some b) (href : b.referenced = true) :
    evictLoop count (fuel + 1) items lst hand ev =
      bumpStep (evictLoop count fuel items (lst.set hand ⟨b.key, false, b.size⟩)
        (nextOrFirst hand lst.length) ev) := by
  rw [evictLoop, if_neg (Nat.not_le_of_lt hev)]
  split
  · rename_i hnone
    rw [hget] at hnone
    cases hnone
  · rename_i item hsome
    rw [hget, Option.some_inj] at hsome
    subst hsome
    rw [if_pos href]

/-- One loop iteration on an unreferenced node that does not empty the
shard: eviction. -/
theorem evictLoop_evict_step {count fuel ev : Nat} {items : List (String × String)}
    {lst : List ClockItem} {hand : Nat} {b : ClockItem}
    (hev : ev < count) (hget : lst[hand]? = some b) (href : b.referenced = false)
    (hne : (lst.eraseIdx hand).length ≠ 0) :
    evictLoop count (fuel + 1) items lst hand ev =
      bumpStep (evictLoop count fuel (eraseA items b.key) (lst.eraseIdx hand)
        (handAfterRemove hand lst.length) (ev + 1)) := by
  rw [evictLoop, if_neg (Nat.not_le_of_lt hev)]
  split
  · rename_i hnone
    rw [hget] at hnone
    cases hnone
  · rename_i item hsome
    rw [hget, Option.some_inj] at hsome
    subst hsome
    rw [if_neg (by rw [href]; exact Bool.false_ne_true), if_neg hne]

/-- Clearing phase: starting at the first referenced node after a cleared
prefix, the sweep clears every remaining bit, wraps to the front, and only
then can it start evicting. -/
theorem evictLoop_clear_phase (count : Nat) :
    ∀ (B A : List ClockItem) (fuel ev : Nat) (items : List (String × String)),
      (∀ it ∈ A, it.referenced = false) → (∀ it ∈ B, it.referenced = true) →
      ev < count → B ≠ [] →
      evictLoop count (fuel + B.length) items (A ++ B) A.length ev =
        bumpSteps B.length (evictLoop count fuel items (clearAll A ++ clearAll B) 0 ev) := by
  intro B
  induction B with
  | nil =>
    intro A fuel ev items _ _ _ hne
    exact absurd rfl hne
  | cons b B' ih =>
    intro A fuel ev items hA hB hev _
    have hbref : b.referenced = true := hB b (List.mem_cons_self b B')
    rw [List.length_cons, ← Nat.add_assoc,
      evictLoop_ref_step hev (getElem?_append_length A B' b) hbref,
      set_append_length A B' b ⟨b.key, false, b.size⟩]
    by_cases hB' : B' = []
    · subst hB'
      have hnext : nextOrFirst A.length (A ++ b :: []).length = 0 := by
        unfold nextOrFirst
        rw [List.length_append, List.length_singleton]
        rw [if_neg (by omega)]
      rw [hnext, clearAll_of_unref hA, bumpStep_eq_bumpSteps_one]
      have hcb : clearAll [b] = [⟨b.key, false, b.size⟩] := by
        unfold clearAll
        rw [List.map_cons, List.map_nil]
      rw [hcb]
      simp
    · have hnext : nextOrFirst A.length (A ++ b :: B').length = A.length + 1 := by
        unfold nextOrFirst
        rw [List.length_append, List.length_cons]
        rw [if_pos (by
          have : 0 < B'.length := List.length_pos.2 hB'
          omega)]
      rw [hnext]
      have harr : A ++ (⟨b.key, false, b.size⟩ : ClockItem) :: B' =
          (A ++ [⟨b.key, false, b.size⟩]) ++ B' := by
        rw [List.append_assoc, List.singleton_append]
      have hlen : A.length + 1 = (A ++ [(⟨b.key, false, b.size⟩ : ClockItem)]).length := by
        rw [List.length_append, List.length_singleton]
      rw [harr, hlen]
      have hih := ih (A ++ [⟨b.key, false, b.size⟩]) fuel ev items
        (by
          intro it hmem
          rw [List.mem_append] at hmem
          rcases hmem with hm | hm
          · exact hA it hm
          · rw [List.mem_singleton] at hm
            rw [hm])
        (fun it hmem => hB it (List.mem_cons_of_mem b hmem)) hev hB'
      rw [hih, bumpStep_bumpSteps]
      have hclr : clearAll (A ++ [(⟨b.key, false, b.size⟩ : ClockItem)]) ++ clearAll B' =
          clearAll A ++ clearAll (b :: B') := by
        rw [clearAll_append, List.append_assoc]
        rfl
      rw [hclr]

/-- Evicting phase: with every reference bit cleared and the hand at the
front, the sweep removes exactly the first `d` nodes in queue order, one
inspection step each. -/
theorem evictLoop_evict_phase (count : Nat) :
    ∀ (d : Nat) (lst : List ClockItem) (fuel ev : Nat) (items : List (String × String)),
      (∀ it ∈ lst, it.referenced = false) → ev + d = count → d < lst.length →
      evictLoop count (fuel + d) items lst 0 ev =
        ⟨eraseKeys items ((lst.take d).map ClockItem.key), lst.drop d, some 0, count, d⟩ := by
  intro d
  induction d with
  | zero =>
    intro lst fuel ev items _ hev _
    rw [Nat.add_zero] at hev
    subst hev
    cases fuel with
    | zero =>
      rw [evictLoop]
      rfl
    | succ f =>
      rw [evictLoop, if_pos (Nat.le_refl ev)]
      rfl
  | succ d ih =>
    intro lst fuel ev items href hev hd
    cases lst with
    | nil => exact absurd hd (by simp)
    | cons q0 qt =>
      have hev' : ev < count := by omega
      have hq0 : q0.referenced = false := href q0 (List.mem_cons_self _ _)
      have hget : (q0 :: qt)[0]? = some q0 := List.getElem?_cons_zero
      have hdq : d < qt.length := by
        rw [List.length_cons] at hd
        omega
      have hne : ((q0 :: qt).eraseIdx 0).length ≠ 0 := by
        rw [List.eraseIdx_cons_zero]
        omega
      rw [← Nat.add_assoc, evictLoop_evict_step hev' hget hq0 hne, List.eraseIdx_cons_zero]
      have hhand : handAfterRemove 0 (q0 :: qt).length = 0 := by
        unfold handAfterRemove
        by_cases hc : 0 + 1 < (q0 :: qt).length
        · rw [if_pos hc]
        · rw [if_neg hc]
      rw [hhand]
      rw [ih qt fuel (ev + 1) (eraseA items q0.key)
        (fun it hm => href it (List.mem_cons_of_mem _ hm)) (by omega) hdq]
      rfl

/-! ### Folding fresh inserts into a single-shard cache -/

theorem putList_cons (c : ShardedCache) (p : String × String) (ps : List (String × String)) :
    putList c (p :: ps) = putList (c.Put p.1 p.2) ps := rfl

theorem Put_single_some_hand (its : List (String × String)) (lst : List ClockItem)
    (h0 : Nat) (m : Int) (k v : String) (hl : lookupA its k = none) :
    (⟨[⟨its, lst, some h0⟩], 1, m⟩ : ShardedCache).Put k v =
      ⟨[⟨its ++ [(k, v)], lst ++ [mkItem (k, v)], some h0⟩], 1,
        m + ((goLen k : Int) + (goLen v : Int))⟩ := by
  simp only [ShardedCache.Put, ShardedCache.getShardIdx, Nat.mod_one, List.getElem?_cons_zero,
    CacheShard.putStep, hl, mkItem]
  rfl

theorem Put_single_fresh (k v : String) :
    (mkCache 1).Put k v =
      ⟨[⟨[(k, v)], [mkItem (k, v)], some 0⟩], 1,
        (0 : Int) + ((goLen k : Int) + (goLen v : Int))⟩ := by
  simp only [mkCache, List.replicate_one, ShardedCache.Put, ShardedCache.getShardIdx,
    Nat.mod_one, List.getElem?_cons_zero, CacheShard.putStep, emptyShard, lookupA, mkItem]
  rfl

theorem putList_single :
    ∀ (ps : List (String × String)) (its : List (String × String)) (lst : List ClockItem)
      (h0 : Nat) (m : Int),
      (ps.map Prod.fst).Nodup →
      (∀ p ∈ ps, lookupA its p.1 = none) →
      putList ⟨[⟨its, lst, some h0⟩], 1, m⟩ ps =
        ⟨[⟨its ++ ps, lst ++ ps.map mkItem, some h0⟩], 1, m + sizeSum ps⟩ := by
  intro ps
  induction ps with
  | nil =>
    intro its lst h0 m _ _
    show (⟨[⟨its, lst, some h0⟩], 1, m⟩ : ShardedCache) = _
    rw [List.append_nil, List.map_nil, List.append_nil]
    unfold sizeSum
    rw [List.map_nil, List.sum_nil, Int.add_zero]
  | cons p rest ih =>
    intro its lst h0 m hnd hl
    have hnd' := hnd
    rw [List.map_cons, List.nodup_cons] at hnd'
    obtain ⟨hpfst, hndrest⟩ := hnd'
    have hlrest : ∀ q ∈ rest, lookupA (its ++ [(p.1, p.2)]) q.1 = none := by
      intro q hq
      have hne : ¬(p.1 = q.1) := by
        intro hpq
        refine hpfst ?_
        rw [hpq]
        exact List.mem_map_of_mem Prod.fst hq
      rw [lookupA_append_of_none (hl q (List.mem_cons_of_mem _ hq)), lookupA, if_neg hne]
      rfl
    rw [putList_cons, Put_single_some_hand its lst h0 m p.1 p.2 (hl p (List.mem_cons_self _ _)),
      ih (its ++ [(p.1, p.2)]) (lst ++ [mkItem (p.1, p.2)]) h0 _ hndrest hlrest,
      List.append_assoc, List.append_assoc, List.singleton_append, List.singleton_append]
    unfold sizeSum
    rw [List.map_cons, List.map_cons, List.sum_cons, Int.add_assoc]

theorem putList_fresh (p : String × String) (rest : List (String × String))
    (hnd : ((p :: rest).map Prod.fst).Nodup) :
    putList (mkCache 1) (p :: rest) =
      ⟨[⟨p :: rest, (p :: rest).map mkItem, some 0⟩], 1, sizeSum (p :: rest)⟩ := by
  have hnd' := hnd
  rw [List.map_cons, List.nodup_cons] at hnd'
  obtain ⟨hpfst, hndrest⟩ := hnd'
  have hlrest : ∀ q ∈ rest, lookupA [(p.1, p.2)] q.1 = none := by
    intro q hq
    have hne : ¬(p.1 = q.1) := by
      intro hpq
      refine hpfst ?_
      rw [hpq]
      exact List.mem_map_of_mem Prod.fst hq
    rw [lookupA, if_neg hne]
    rfl
  rw [putList_cons, Put_single_fresh p.1 p.2,
    putList_single rest [(p.1, p.2)] [mkItem (p.1, p.2)] 0 _ hndrest hlrest,
    List.singleton_append, List.singleton_append]
  unfold sizeSum
  rw [List.map_cons, List.map_cons, List.sum_cons, Int.zero_add]

theorem eraseKeys_cons (items : List (String × String)) (k : String) (ks : List String) :
    eraseKeys items (k :: ks) = eraseKeys (eraseA items k) ks := rfl

theorem lookupA_eraseA_none {items : List (String × String)} {k k0 : String}
    (h : lookupA items k = none) : lookupA (eraseA items k0) k = none := by
  by_cases hk : k = k0
  · rw [hk]
    exact lookupA_eraseA_self
  · rw [lookupA_eraseA_ne hk]
    exact h

theorem lookupA_eraseKeys_none : ∀ (ks : List String) (items : List (String × String))
    (k : String), lookupA items k = none → lookupA (eraseKeys items ks) k = none := by
  intro ks
  induction ks with
  | nil =>
    intro items k h
    exact h
  | cons k0 rest ih =>
    intro items k h
    rw [eraseKeys_cons]
    exact ih _ _ (lookupA_eraseA_none h)

theorem lookupA_eraseKeys_mem : ∀ (ks : List String) (items : List (String × String))
    (k : String), k ∈ ks → lookupA (eraseKeys items ks) k = none := by
  intro ks
  induction ks with
  | nil =>
    intro items k h
    cases h
  | cons k0 rest ih =>
    intro items k h
    rw [eraseKeys_cons]
    rcases List.mem_cons.1 h with h1 | h2
    · subst h1
      exact lookupA_eraseKeys_none rest _ _ lookupA_eraseA_self
    · exact ih _ _ h2

theorem lookupA_eraseKeys_not_mem : ∀ (ks : List String) (items : List (String × String))
    (k : String), k ∉ ks → lookupA (eraseKeys items ks) k = lookupA items k := by
  intro ks
  induction ks with
  | nil =>
    intro items k _
    rfl
  | cons k0 rest ih =>
    intro items k h
    rw [eraseKeys_cons, ih _ _ (fun hm => h (List.mem_cons_of_mem _ hm)),
      lookupA_eraseA_ne (fun he => h (by rw [he]; exact List.mem_cons_self k0 rest))]

theorem lookupA_of_nodup_getElem : ∀ (l : List (String × String)) (i : Nat)
    (p : String × String), (l.map Prod.fst).Nodup → l[i]? = some p →
    lookupA l p.1 = some p.2 := by
  intro l
  induction l with
  | nil =>
    intro i p _ h
    simp at h
  | cons q t ih =>
    intro i p hnd h
    rw [List.map_cons, List.nodup_cons] at hnd
    cases i with
    | zero =>
      rw [List.getElem?_cons_zero, Option.some_inj] at h
      subst h
      rw [lookupA, if_pos rfl]
    | succ i =>
      rw [List.getElem?_cons_succ] at h
      have hp1 : p.1 ∈ t.map Prod.fst := List.mem_map_of_mem Prod.fst (mem_of_getElem?' h)
      rw [lookupA, if_neg (fun he : q.1 = p.1 => hnd.1 (by rw [he]; exact hp1))]
      exact ih i p hnd.2 h

@[simp] theorem clearAll_nil : clearAll [] = [] := rfl

theorem mkItem_referenced (ps : List (String × String)) :
    ∀ it ∈ ps.map mkItem, it.referenced = true := by
  intro it hmem
  rw [List.mem_map] at hmem
  obtain ⟨p, _, hp⟩ := hmem
  rw [← hp]
  rfl

theorem evictBatch_single (s : CacheShard) (m : Int) (k : Nat) (hk : 1 ≤ k) :
    (⟨[s], 1, m⟩ : ShardedCache).evictBatch k =
      (⟨[(s.evict k).1], 1, m⟩, (s.evict k).2) := by
  have h1 : (⟨[s], 1, m⟩ : ShardedCache).evictBatch k =
      ({ shards := (evictBatchLoop k (if k / 1 < 1 then 1 else k / 1) [s] 0).1,
         shardCount := 1, memUsage := m },
        (evictBatchLoop k (if k / 1 < 1 then 1 else k / 1) [s] 0).2) := rfl
  rw [h1]
  have hPk : (if k / 1 < 1 then 1 else k / 1) = k := by
    rw [Nat.div_one, if_neg (by omega)]
  rw [hPk]
  have hloop : evictBatchLoop k k [s] 0 = ([(s.evict k).1], (s.evict k).2) := by
    rw [evictBatchLoop, if_neg (by omega), evictBatchLoop]
    unfold consShard
    rw [Nat.zero_add]
  rw [hloop]

theorem Get_single (s : CacheShard) (m : Int) (key : String) :
    ((⟨[s], 1, m⟩ : ShardedCache).Get key).2 = (s.getStep key).2 := by
  simp only [ShardedCache.Get, ShardedCache.getShardIdx, Nat.mod_one, List.getElem?_cons_zero]

theorem evict_fresh_queue (pairs : List (String × String)) (k : Nat)
    (hk1 : 1 ≤ k) (hk : k < pairs.length) :
    (CacheShard.mk pairs (pairs.map mkItem) (some 0)).evict k =
      (⟨eraseKeys pairs ((pairs.map Prod.fst).take k),
        (clearAll (pairs.map mkItem)).drop k, some 0⟩, k) := by
  have hlen : (pairs.map mkItem).length = pairs.length := List.length_map _ _
  have hne : ¬((CacheShard.mk pairs (pairs.map mkItem) (some 0)).itemsList.length = 0) := by
    show ¬((pairs.map mkItem).length = 0)
    rw [hlen]
    omega
  have h1 : (CacheShard.mk pairs (pairs.map mkItem) (some 0)).evict k =
      (⟨(evictLoop k ((pairs.map mkItem).length * 2) pairs (pairs.map mkItem) 0 0).items,
        (evictLoop k ((pairs.map mkItem).length * 2) pairs (pairs.map mkItem) 0 0).itemsList,
        (evictLoop k ((pairs.map mkItem).length * 2) pairs (pairs.map mkItem) 0 0).clockHand⟩,
       (evictLoop k ((pairs.map mkItem).length * 2) pairs (pairs.map mkItem) 0 0).evicted) := by
    simp only [CacheShard.evict]
    rw [if_neg hne]
  rw [h1, hlen, mul_two]
  have hclear := evictLoop_clear_phase k (pairs.map mkItem) [] pairs.length 0 pairs
    (fun it hm => absurd hm (List.not_mem_nil it)) (mkItem_referenced pairs)
    (by omega) (by
      intro hnil
      rw [hnil] at hlen
      simp at hlen
      omega)
  rw [List.nil_append, List.length_nil, List.length_map, clearAll_nil, List.nil_append] at hclear
  rw [hclear]
  have hevict := evictLoop_evict_phase k k (clearAll (pairs.map mkItem)) (pairs.length - k) 0
    pairs (clearAll_unref _) (by omega) (by rw [clearAll_length, List.length_map]; exact hk)
  rw [Nat.sub_add_cancel (Nat.le_of_lt hk)] at hevict
  rw [hevict]
  have htake : ((clearAll (pairs.map mkItem)).take k).map ClockItem.key =
      (pairs.map Prod.fst).take k := by
    rw [List.map_take, clearAll_map_key, mkItem_map_key]
  rw [bumpSteps_items, bumpSteps_itemsList, bumpSteps_clockHand, bumpSteps_evicted, htake]

/-- C5: with a single shard, after inserting distinct keys (never looked
up) and calling `EvictBatch(k)` with `k` below the number of entries,
exactly `k` entries are removed — the first `k` inserted, in insertion
order (the survivors are the key suffix, in order) — and lookups of
evicted keys miss while lookups of surviving keys still return their
values. -/
theorem C5_single_shard_insertion_order (pairs : List (String × String)) (k : Nat)
    (hnd : (pairs.map Prod.fst).Nodup) (hk : k < pairs.length) (hk1 : 1 ≤ k) :
    ((putList (mkCache 1) pairs).evictBatch k).2 = k ∧
    ((putList (mkCache 1) pairs).evictBatch k).1.shards.map
        (fun s => s.itemsList.map ClockItem.key) = [(pairs.map Prod.fst).drop k] ∧
    (∀ (i : Nat) (p : String × String), pairs[i]? = some p → i < k →
      (((putList (mkCache 1) pairs).evictBatch k).1.Get p.1).2 = ("", false)) ∧
    (∀ (i : Nat) (p : String × String), pairs[i]? = some p → k ≤ i →
      (((putList (mkCache 1) pairs).evictBatch k).1.Get p.1).2 = (p.2, true)) := by
  obtain ⟨p0, rest, rfl⟩ : ∃ p0 rest, pairs = p0 :: rest := by
    cases pairs with
    | nil => rw [List.length_nil] at hk; omega
    | cons a t => exact ⟨a, t, rfl⟩
  have hmain : ((putList (mkCache 1) (p0 :: rest)).evictBatch k) =
      (⟨[⟨eraseKeys (p0 :: rest) (((p0 :: rest).map Prod.fst).take k),
          (clearAll ((p0 :: rest).map mkItem)).drop k, some 0⟩], 1,
        sizeSum (p0 :: rest)⟩, k) := by
    rw [putList_fresh p0 rest hnd, evictBatch_single _ _ k hk1,
      evict_fresh_queue (p0 :: rest) k hk1 hk]
  rw [hmain]
  refine ⟨rfl, ?_, ?_, ?_⟩
  · show [((clearAll ((p0 :: rest).map mkItem)).drop k).map ClockItem.key] =
      [((p0 :: rest).map Prod.fst).drop k]
    rw [List.map_drop, clearAll_map_key, mkItem_map_key]
  · intro i p hp hik
    show (((⟨[⟨eraseKeys (p0 :: rest) (((p0 :: rest).map Prod.fst).take k),
        (clearAll ((p0 :: rest).map mkItem)).drop k, some 0⟩], 1,
        sizeSum (p0 :: rest)⟩ : ShardedCache)).Get p.1).2 = ("", false)
    rw [Get_single]
    have hkey : p.1 ∈ ((p0 :: rest).map Prod.fst).take k := by
      have h1 : ((p0 :: rest).map Prod.fst)[i]? = some p.1 := by
        rw [List.getElem?_map, hp]
        rfl
      have h2 : (((p0 :: rest).map Prod.fst).take k)[i]? = some p.1 := by
        rw [List.getElem?_take, if_pos hik]
        exact h1
      exact mem_of_getElem?' h2
    exact getStep_of_none (lookupA_eraseKeys_mem _ _ _ hkey)
  · intro i p hp hik
    show (((⟨[⟨eraseKeys (p0 :: rest) (((p0 :: rest).map Prod.fst).take k),
        (clearAll ((p0 :: rest).map mkItem)).drop k, some 0⟩], 1,
        sizeSum (p0 :: rest)⟩ : ShardedCache)).Get p.1).2 = (p.2, true)
    rw [Get_single]
    have hdropmem : p.1 ∈ ((p0 :: rest).map Prod.fst).drop k := by
      have h1 : (((p0 :: rest).map Prod.fst).drop k)[i - k]? = some p.1 := by
        rw [List.getElem?_drop]
        have hki : k + (i - k) = i := by omega
        rw [hki, List.getElem?_map, hp]
        rfl
      exact mem_of_getElem?' h1
    have hnotin : p.1 ∉ ((p0 :: rest).map Prod.fst).take k := by
      intro hmem
      have hsplit := hnd
      rw [← List.take_append_drop k ((p0 :: rest).map Prod.fst)] at hsplit
      exact (List.nodup_append.1 hsplit).2.2 hmem hdropmem
    have hlook : lookupA (eraseKeys (p0 :: rest) (((p0 :: rest).map Prod.fst).take k)) p.1 =
        some p.2 := by
      rw [lookupA_eraseKeys_not_mem _ _ _ hnotin]
      exact lookupA_of_nodup_getElem _ i p hnd hp
    exact getStep_of_lookup hlook

/-- C5 witness: three inserts, evict two. -/
theorem C5_single_shard_insertion_order_witness :
    (([("a", "1"), ("b", "2"), ("c", "3")].map Prod.fst).Nodup ∧
      2 < ([("a", "1"), ("b", "2"), ("c", "3")] : List (String × String)).length ∧ 1 ≤ 2) ∧
    (((putList (mkCache 1) [("a", "1"), ("b", "2"), ("c", "3")]).evictBatch 2).2 = 2 ∧
      ((putList (mkCache 1) [("a", "1"), ("b", "2"), ("c", "3")]).evictBatch 2).1.shards.map
          (fun s => s.itemsList.map ClockItem.key) =
        [([("a", "1"), ("b", "2"), ("c", "3")].map Prod.fst).drop 2] ∧
      (∀ (i : Nat) (p : String × String),
        ([("a", "1"), ("b", "2"), ("c", "3")] : List (String × String))[i]? = some p → i < 2 →
        (((putList (mkCache 1) [("a", "1"), ("b", "2"), ("c", "3")]).evictBatch 2).1.Get
          p.1).2 = ("", false)) ∧
      (∀ (i : Nat) (p : String × String),
        ([("a", "1"), ("b", "2"), ("c", "3")] : List (String × String))[i]? = some p → 2 ≤ i →
        (((putList (mkCache 1) [("a", "1"), ("b", "2"), ("c", "3")]).evictBatch 2).1.Get
          p.1).2 = (p.2, true))) :=
  ⟨⟨by decide, by decide, by decide⟩,
    C5_single_shard_insertion_order [("a", "1"), ("b", "2"), ("c", "3")] 2
      (by decide) (by decide) (by decide)⟩

/-! ### Memory accounting lemmas -/

theorem sumQueue_map_size_eq {lst : List ClockItem} {g : ClockItem → ClockItem}
    (h : ∀ it, (g it).size = it.size) : sumQueue (lst.map g) = sumQueue lst := by
  unfold sumQueue
  rw [map_size_map_of_size_eq h]

theorem sum_map_set {l : List CacheShard} {i : Nat} {s s' : CacheShard}
    (hget : l[i]? = some s) :
    ((l.set i s').map (fun t => sumQueue t.itemsList)).sum =
      ((l.map (fun t => sumQueue t.itemsList)).sum - sumQueue s.itemsList) +
        sumQueue s'.itemsList := by
  induction l generalizing i with
  | nil => simp at hget
  | cons a t ih =>
    cases i with
    | zero =>
      rw [List.getElem?_cons_zero, Option.some_inj] at hget
      subst hget
      rw [List.set_cons_zero, List.map_cons, List.sum_cons, List.map_cons, List.sum_cons]
      ring
    | succ i =>
      rw [List.getElem?_cons_succ] at hget
      rw [List.set_cons_succ, List.map_cons, List.sum_cons, List.map_cons, List.sum_cons, ih hget]
      ring

theorem map_upd_of_not_mem {lst : List ClockItem} {k : String} {ns : Int}
    (h : k ∉ lst.map ClockItem.key) :
    lst.map (fun it => if it.key = k then ⟨it.key, true, ns⟩ else it) = lst := by
  induction lst with
  | nil => rfl
  | cons a t ih =>
    rw [List.map_cons, List.mem_cons] at h
    push_neg at h
    rw [List.map_cons, if_neg (fun he : a.key = k => h.1 he.symm), ih h.2]

theorem sumQueue_update {k : String} {ns os : Int} :
    ∀ {lst : List ClockItem}, (lst.map ClockItem.key).Nodup → k ∈ lst.map ClockItem.key →
      (∀ it ∈ lst, it.key = k → it.size = os) →
      sumQueue (lst.map (fun it => if it.key = k then ⟨it.key, true, ns⟩ else it)) =
        sumQueue lst + ns - os := by
  intro lst
  induction lst with
  | nil =>
    intro _ hmem _
    cases hmem
  | cons a t ih =>
    intro hnd hmem hsize
    rw [List.map_cons, List.nodup_cons] at hnd
    rw [List.map_cons]
    by_cases hak : a.key = k
    · have hos : a.size = os := hsize a (List.mem_cons_self a t) hak
      have hnot : k ∉ t.map ClockItem.key := by
        rw [← hak]
        exact hnd.1
      rw [if_pos hak, map_upd_of_not_mem hnot]
      unfold sumQueue
      rw [List.map_cons, List.sum_cons, List.map_cons, List.sum_cons]
      rw [hos]
      ring
    · have hmem' : k ∈ t.map ClockItem.key := by
        rw [List.map_cons, List.mem_cons] at hmem
        rcases hmem with h1 | h2
        · exact absurd h1.symm hak
        · exact h2
      rw [if_neg hak]
      have hupd := ih hnd.2 hmem' (fun it hm hk => hsize it (List.mem_cons_of_mem a hm) hk)
      unfold sumQueue at hupd ⊢
      rw [List.map_cons, List.sum_cons, List.map_cons, List.sum_cons, hupd]
      ring

theorem putStep_sumQueue {s : CacheShard} (k v : String)
    (hwf : WFShard s) (hsz : SizeOK s) :
    sumQueue (s.putStep k v).1.itemsList = sumQueue s.itemsList + (s.putStep k v).2 := by
  obtain ⟨h1, h2, h3, h4, h5⟩ := hwf
  unfold CacheShard.putStep
  split
  · rename_i oldVal hl
    have hkeys : k ∈ s.items.map Prod.fst := by
      rw [← lookupA_isSome]
      rw [hl]
      rfl
    have hmemq : k ∈ s.itemsList.map ClockItem.key := h3 k hkeys
    have hsize : ∀ it ∈ s.itemsList, it.key = k →
        it.size = (goLen k : Int) + (goLen oldVal : Int) := by
      intro it hm hk
      have := hsz it hm
      rw [hk, hl] at this
      rw [Option.map_some'] at this
      exact Option.some_inj.1 this
    show sumQueue (s.itemsList.map (fun it =>
        if it.key = k then ⟨it.key, true, (goLen k : Int) + (goLen v : Int)⟩ else it)) =
      sumQueue s.itemsList + ((goLen v : Int) - (goLen oldVal : Int))
    rw [sumQueue_update h2 hmemq hsize]
    ring
  · unfold sumQueue
    rw [List.map_append, List.sum_append]
    rw [List.map_cons, List.map_nil, List.sum_cons, List.sum_nil]
    ring

theorem getStep_sumQueue (s : CacheShard) (k : String) :
    sumQueue (s.getStep k).1.itemsList = sumQueue s.itemsList := by
  unfold CacheShard.getStep
  split
  · refine sumQueue_map_size_eq (fun it => ?_)
    by_cases hk : it.key = k
    · rw [if_pos hk]
    · rw [if_neg hk]
  · rfl

theorem Get_shards {c : ShardedCache} {key : String} {s : CacheShard}
    (hs : c.shards[c.getShardIdx key]? = some s) :
    (c.Get key).1.shards = c.shards.set (c.getShardIdx key) (s.getStep key).1 := by
  unfold ShardedCache.Get
  rw [hs]

/-- C1 (counterexample): insert one entry (counter becomes 2 = the
entry's size), then have the CLOCK sweep evict it: the sweep removes the
entry but reports no delta.  On the fresh 1024-shard cache the counter
stays 2 instead of decreasing by the entry's size; on a one-shard cache
the same run leaves counter 2 with live-size sum 0, falsifying the
invariant. -/
theorem C1_counterexample :
    (((newCache.Put "a" "1").evictBatch 1).2 = 1 ∧
      ((newCache.Put "a" "1").evictBatch 1).1.memUsage = (newCache.Put "a" "1").memUsage ∧
      (newCache.Put "a" "1").memUsage = 2 ∧
      (((newCache.Put "a" "1").evictBatch 1).1.Get "a").2 = ("", false) ∧
      ¬(((newCache.Put "a" "1").evictBatch 1).1.memUsage =
        (newCache.Put "a" "1").memUsage - 2)) ∧
    ((((mkCache 1).Put "a" "1").evictBatch 1).2 = 1 ∧
      sumSizes (((mkCache 1).Put "a" "1").evictBatch 1).1 = 0 ∧
      (((mkCache 1).Put "a" "1").evictBatch 1).1.memUsage = 2 ∧
      ¬((((mkCache 1).Put "a" "1").evictBatch 1).1.memUsage =
        sumSizes (((mkCache 1).Put "a" "1").evictBatch 1).1)) := by
  refine ⟨⟨by decide, by decide, by decide, by decide, by decide⟩,
    by decide, by decide, by decide, by decide⟩

/-- C1 (amended): the counter equals the sum of live entries' sizes only
while no eviction has occurred: `Put` and `Get` preserve the equality
(each `Put` reports its delta exactly once), but the CLOCK sweep reports
no delta at all — `evictBatch` leaves the global counter unchanged, so
each eviction makes the counter exceed the live-size sum by the evicted
entry's size. -/
theorem C1_amended_accounting (c : ShardedCache) (k v : String) (n : Nat)
    (hlen : c.shards.length = c.shardCount) (hpos : 0 < c.shardCount)
    (hwf : ∀ s ∈ c.shards, WFShard s ∧ SizeOK s)
    (hacc : c.memUsage = sumSizes c) :
    (c.Put k v).memUsage = sumSizes (c.Put k v) ∧
    (c.Get k).1.memUsage = sumSizes (c.Get k).1 ∧
    (c.evictBatch n).1.memUsage = c.memUsage := by
  refine ⟨?_, ?_, rfl⟩
  · obtain ⟨s, hs⟩ := shards_get?_some k hlen hpos
    have hmem := mem_of_getElem?' hs
    have hps := putStep_sumQueue k v (hwf s hmem).1 (hwf s hmem).2
    have h1 : sumSizes (c.Put k v) =
        (sumSizes c - sumQueue s.itemsList) + sumQueue (s.putStep k v).1.itemsList := by
      unfold sumSizes
      rw [Put_shards k v hs]
      exact sum_map_set hs
    rw [Put_memUsage k v hs, h1, hps, hacc]
    ring
  · obtain ⟨s, hs⟩ := shards_get?_some k hlen hpos
    have h1 : sumSizes (c.Get k).1 =
        (sumSizes c - sumQueue s.itemsList) + sumQueue (s.getStep k).1.itemsList := by
      unfold sumSizes
      rw [Get_shards hs]
      exact sum_map_set hs
    rw [Get_memUsage, h1, getStep_sumQueue, hacc]
    ring

/-- C1 witness: a one-shard cache holding one correctly-sized entry. -/
theorem C1_amended_accounting_witness :
    ((⟨[⟨[("a", "1")], [⟨"a", true, 2⟩], some 0⟩], 1, 2⟩ : ShardedCache).shards.length =
        (⟨[⟨[("a", "1")], [⟨"a", true, 2⟩], some 0⟩], 1, 2⟩ : ShardedCache).shardCount ∧
      0 < (⟨[⟨[("a", "1")], [⟨"a", true, 2⟩], some 0⟩], 1, 2⟩ : ShardedCache).shardCount ∧
      (∀ s ∈ (⟨[⟨[("a", "1")], [⟨"a", true, 2⟩], some 0⟩], 1, 2⟩ : ShardedCache).shards,
        WFShard s ∧ SizeOK s) ∧
      (⟨[⟨[("a", "1")], [⟨"a", true, 2⟩], some 0⟩], 1, 2⟩ : ShardedCache).memUsage =
        sumSizes ⟨[⟨[("a", "1")], [⟨"a", true, 2⟩], some 0⟩], 1, 2⟩) ∧
    (((⟨[⟨[("a", "1")], [⟨"a", true, 2⟩], some 0⟩], 1, 2⟩ : ShardedCache).Put "b" "22").memUsage =
        sumSizes ((⟨[⟨[("a", "1")], [⟨"a", true, 2⟩], some 0⟩], 1, 2⟩ : ShardedCache).Put
          "b" "22") ∧
      ((⟨[⟨[("a", "1")], [⟨"a", true, 2⟩], some 0⟩], 1, 2⟩ : ShardedCache).Get "b").1.memUsage =
        sumSizes ((⟨[⟨[("a", "1")], [⟨"a", true, 2⟩], some 0⟩], 1, 2⟩ : ShardedCache).Get
          "b").1 ∧
      ((⟨[⟨[("a", "1")], [⟨"a", true, 2⟩], some 0⟩], 1, 2⟩ : ShardedCache).evictBatch 1).1.memUsage =
        (⟨[⟨[("a", "1")], [⟨"a", true, 2⟩], some 0⟩], 1, 2⟩ : ShardedCache).memUsage) :=
  ⟨⟨by decide, by decide, by decide, by decide⟩,
    C1_amended_accounting ⟨[⟨[("a", "1")], [⟨"a", true, 2⟩], some 0⟩], 1, 2⟩ "b" "22" 1
      (by decide) (by decide) (by decide) (by decide)⟩
